import Mathlib

/-!
# Gantt chart maker: dependency scheduler and task model

A shallow embedding of `src/scripts/utils.js`, `src/scripts/algorithms.js`,
`src/scripts/taskModel.js` and of the copies of the same classes in
`src/scripts/bundle.js`.

Modelling conventions.

* A JavaScript `Date` is `JSDate`: its time value in milliseconds since the
  epoch (UTC), or `none` for the Invalid Date.  A date string held in a task
  field is a `DateStr`: the `YYYY-MM-DD` text of a day number (days since
  1970-01-01), the empty string, or some other text that `new Date` cannot
  read.  `new Date('YYYY-MM-DD')` is midnight UTC of that day, and
  `toISOString()` prints the UTC date of the instant.
* The host time zone is a parameter `z : Zone`.  The local-time methods of
  `Date` (`getDate`, `setDate`, `setHours`) go through it as ECMAScript
  prescribes: the time value is turned into local time with the offset in force
  at that instant, changed, and read back with the offset that belongs to the
  resulting local time.  `Zone.fixed c` is a zone without offset changes,
  `Zone.newYork` is America/New_York with its two changes of 2024.
* The range limit of `Date` (8.64e15 ms either side of the epoch) is not
  modelled.
* A clock reading (`Date.now()`, `new Date()`) is a parameter `now`, in
  milliseconds since the epoch.
* The task array is a `List Task`; an object reference into the array (as
  stored in the `Map` built by `autoSchedule`) is the position of the task.
  In-place mutation becomes explicit state passing.
* A raised `RangeError` is the `error` case of `Except`.
* `localStorage` persistence (`save`) has no effect on the task array and is
  left out.
-/

namespace Gantt

/-- Errors raised by the embedded code. `rangeError` is the
"RangeError: Invalid time value" of `toISOString` on an Invalid Date. -/
inductive JSError where
  | rangeError
  deriving DecidableEq, Repr

/-- Milliseconds in a day. -/
def msPerDay : Int := 86400000

/-- Milliseconds in an hour. -/
def msPerHour : Int := 3600000

/-- Day number of the civil date `y-m-d` (proleptic Gregorian calendar),
used to write concrete dates such as 2024-01-01. -/
def civil (y m d : Int) : Int :=
  let y1 := if m ≤ 2 then y - 1 else y
  let era := y1 / 400
  let yoe := y1 - era * 400
  let mp := if m > 2 then m - 3 else m + 9
  let doy := (153 * mp + 2) / 5 + d - 1
  let doe := yoe * 365 + yoe / 4 - yoe / 100 + doy
  era * 146097 + doe - 719468

/-- The host time zone.  `offsetAt t` is the offset of local time from UTC in
force at the instant `t` (`LocalTZA(t, true)`); `offsetOfLocal tl` is the offset
by which the local time value `tl` is read back to an instant
(`LocalTZA(tl, false)`; a local time that is skipped or repeated by a change of
offset is read with the offset in force before the change). -/
structure Zone where
  offsetAt : Int → Int
  offsetOfLocal : Int → Int

namespace Zone

/-- A zone that stays `c` milliseconds ahead of UTC. -/
def fixed (c : Int) : Zone :=
  { offsetAt := fun _ => c, offsetOfLocal := fun _ => c }

/-- The zone UTC. -/
def utc : Zone := fixed 0

/-- The instant of 2024-03-10 07:00 UTC, when America/New_York goes from
UTC-5 to UTC-4. -/
def springForward2024 : Int := civil 2024 3 10 * msPerDay + 7 * msPerHour

/-- The instant of 2024-11-03 06:00 UTC, when America/New_York goes back from
UTC-4 to UTC-5. -/
def fallBack2024 : Int := civil 2024 11 3 * msPerDay + 6 * msPerHour

/-- America/New_York around 2024: UTC-5, from 2024-03-10 07:00 UTC on UTC-4,
from 2024-11-03 06:00 UTC on UTC-5 again.  (The changes of other years are
left out.) -/
def newYork : Zone :=
  { offsetAt := fun t =>
      if t < springForward2024 then -5 * msPerHour
      else if t < fallBack2024 then -4 * msPerHour
      else -5 * msPerHour
    offsetOfLocal := fun tl =>
      if tl < springForward2024 - 4 * msPerHour then -5 * msPerHour
      else if tl < fallBack2024 - 4 * msPerHour then -4 * msPerHour
      else -5 * msPerHour }

/-- `LocalTime(t)`: the local time value of the instant `t`. -/
def localTime (z : Zone) (t : Int) : Int := t + z.offsetAt t

/-- `UTC(tl)`: the instant a local time value is read back to. -/
def toUTC (z : Zone) (tl : Int) : Int := tl - z.offsetOfLocal tl

/-- `date.setDate(date.getDate() + n)` on the time value `t`: the local
calendar date moves by `n` days, the local time of day stays. -/
def setDatePlus (z : Zone) (t : Int) (n : Int) : Int :=
  z.toUTC (z.localTime t + n * msPerDay)

/-- `date.setHours(0, 0, 0, 0)` on the time value `t`: local midnight of the
local calendar date. -/
def setHoursZero (z : Zone) (t : Int) : Int :=
  z.toUTC (z.localTime t / msPerDay * msPerDay)

/-- The local time value `tl` occurs in the zone: the instant it is read back
to shows it again (it is not skipped by a change of offset). -/
def HasLocal (z : Zone) (tl : Int) : Prop :=
  z.localTime (z.toUTC tl) = tl

instance (z : Zone) (tl : Int) : Decidable (z.HasLocal tl) := by
  unfold HasLocal; infer_instance

end Zone

/-- Text held in the `start` and `end` fields of a task. -/
inductive DateStr where
  /-- The `YYYY-MM-DD` text of the given day number. -/
  | ymd (day : Int)
  /-- The empty string (falsy). -/
  | empty
  /-- Any other text, which `new Date` cannot read. -/
  | invalid
  deriving DecidableEq, Repr

/-- A `Date` object: its time value in milliseconds; `none` is the Invalid
Date. -/
abbrev JSDate := Option Int

/-- The day number a date text stands for, if it is a date. -/
def dayOf : DateStr → Option Int
  | .ymd d => some d
  | .empty => none
  | .invalid => none

/-- Reading of a date text by `new Date(str)`: midnight UTC of the day. -/
def newDate : DateStr → JSDate
  | .ymd d => some (d * msPerDay)
  | .empty => none
  | .invalid => none

/-- JavaScript truthiness of a date text: only the empty string is falsy. -/
def DateStr.truthy : DateStr → Bool
  | .empty => false
  | _ => true

/-- The comparison `a < b` of two `Date` objects: false when either is invalid. -/
def dateLt : JSDate → JSDate → Bool
  | some a, some b => decide (a < b)
  | _, _ => false

/-- A task record. `end_` is the `end` field. -/
structure Task where
  id : String
  name : String
  start : DateStr
  end_ : DateStr
  duration : Int
  gap : Int
  progress : Int
  dependencyId : Option String
  status : String
  deriving DecidableEq, Repr

namespace Utils

/-- `Utils.formatDate(date)` on a `Date` object: `toISOString().split('T')[0]`,
the UTC date of the instant; it raises on the Invalid Date.  (The `!date` early
return concerns falsy arguments only; a `Date` object is never falsy.) -/
def formatDate (date : JSDate) : Except JSError DateStr :=
  match date with
  | some t => .ok (.ymd (t / msPerDay))
  | none => .error .rangeError

/-- `Utils.addDays(date, days)` on a `Date` argument: `new Date(date)` copies
the date, then `setDate(getDate() + days)`. -/
def addDaysDate (z : Zone) (date : JSDate) (days : Int) : JSDate :=
  match date with
  | some t => some (z.setDatePlus t days)
  | none => none

/-- `Utils.addDays(dateStr, days)`: `new Date(dateStr)`, then
`setDate(getDate() + parseInt(days))`. -/
def addDays (z : Zone) (dateStr : DateStr) (days : Int) : JSDate :=
  addDaysDate z (newDate dateStr) days

end Utils

namespace Algorithms

/-- Lookup in `new Map(tasks.map(t => [t.id, t]))`, with positions counted from
`k`: a later entry for a key replaces an earlier one, so the lookup yields the
position of the last task that carries the id. -/
def taskMapFrom (k : Nat) : List Task → String → Option Nat
  | [], _ => none
  | t :: ts, key =>
    match taskMapFrom (k + 1) ts key with
    | some j => some j
    | none => if t.id = key then some k else none

/-- `taskMap.get(key)` for the map built from `tasks`. -/
def taskMapGet (tasks : List Task) (key : String) : Option Nat :=
  taskMapFrom 0 tasks key

/-- The guard `task.dependencyId && taskMap.has(task.dependencyId)` together
with `taskMap.get(task.dependencyId)`: the position of the parent, if the
dependency id is truthy and present in the map. -/
def parentOf (tasks : List Task) (task : Task) : Option Nat :=
  match task.dependencyId with
  | none => none
  | some dep => if dep = "" then none else taskMapGet tasks dep

/-- One iteration of the `forEach` callback of `autoSchedule`, on the task at
position `i`.  `tasks0` is the array the map was built from (ids are never
written, so the map is the same throughout the loop); `st` is the current
array and the `changed` flag.  `gap` and `duration` are integers here, so
`parseInt(task.gap) || 0` is `task.gap` and `parseInt(days)` is `days`. -/
def visit (z : Zone) (tasks0 : List Task) (st : List Task × Bool) (i : Nat) :
    Except JSError (List Task × Bool) :=
  match st.1[i]? with
  | none => pure st
  | some task =>
    match parentOf tasks0 task with
    | none => pure st
    | some j =>
      match st.1[j]? with
      | none => pure st
      | some parent =>
        let gap := task.gap
        let newStart := Utils.addDays z parent.end_ (gap + 1)
        let currentStart := newDate task.start
        if dateLt currentStart newStart then do
          let start ← Utils.formatDate newStart
          let newEnd := Utils.addDays z start task.duration
          let end_ ← Utils.formatDate newEnd
          pure (st.1.set i { task with start := start, end_ := end_ }, true)
        else pure st

/-- `Algorithms.autoSchedule(tasks)` (the same code in `algorithms.js` and in
`bundle.js`): the array after the pass and the returned `changed` flag. -/
def autoSchedule (z : Zone) (tasks : List Task) : Except JSError (List Task × Bool) :=
  (List.range tasks.length).foldlM (visit z tasks) (tasks, false)

end Algorithms

namespace TaskModel

/-- The `updates` object passed to `updateTask`: each field is `none` when the
key is absent.  For `dependencyId` the inner `none` is the value `null`.  The
keys are the editable fields of a task; `id` is never sent. -/
structure Updates where
  name : Option String := none
  start : Option DateStr := none
  end_ : Option DateStr := none
  duration : Option Int := none
  gap : Option Int := none
  progress : Option Int := none
  dependencyId : Option (Option String) := none
  status : Option String := none
  deriving DecidableEq, Repr

/-- `this.tasks.find(t => t.id === id)`, as the position of the first task
with the id, positions counted from `k`. -/
def findFrom (k : Nat) : List Task → String → Option Nat
  | [], _ => none
  | t :: ts, id => if t.id = id then some k else findFrom (k + 1) ts id

/-- `getTaskById(id)`: the position of the first task with the id. -/
def getTaskById (tasks : List Task) (id : String) : Option Nat :=
  findFrom 0 tasks id

/-- `Object.assign(task, updates)`: every key present in `updates` overwrites
the field of the task. -/
def assign (task : Task) (updates : Updates) : Task :=
  { id := task.id
    name := updates.name.getD task.name
    start := updates.start.getD task.start
    end_ := updates.end_.getD task.end_
    duration := updates.duration.getD task.duration
    gap := updates.gap.getD task.gap
    progress := updates.progress.getD task.progress
    dependencyId := updates.dependencyId.getD task.dependencyId
    status := updates.status.getD task.status }

/-- Truthiness of `updates.start`: present and not the empty string. -/
def startTruthy (updates : Updates) : Bool :=
  match updates.start with
  | some s => s.truthy
  | none => false

/-- Truthiness of `updates.duration`: present and not zero. -/
def durationTruthy (updates : Updates) : Bool :=
  match updates.duration with
  | some d => decide (d ≠ 0)
  | none => false

/-- The part of `updateTask` shared by both copies: find the task, re-derive
`end` when `updates.start || updates.duration`, then `Object.assign`.  Yields
the array unchanged when the id is unknown. -/
def applyUpdate (z : Zone) (tasks : List Task) (id : String) (updates : Updates) :
    Except JSError (List Task) :=
  match getTaskById tasks id with
  | none => pure tasks
  | some i =>
    match tasks[i]? with
    | none => pure tasks
    | some task =>
      if startTruthy updates || durationTruthy updates then do
        let start := if startTruthy updates then updates.start.getD task.start else task.start
        let duration :=
          if durationTruthy updates then updates.duration.getD task.duration else task.duration
        let endDate := Utils.addDays z start duration
        let e ← Utils.formatDate endDate
        pure (tasks.set i (assign task { updates with end_ := some e }))
      else
        pure (tasks.set i (assign task updates))

/-- `TaskModel.updateTask(id, updates)` of `taskModel.js`: the task array
afterwards. -/
def updateTask (z : Zone) (tasks : List Task) (id : String) (updates : Updates) :
    Except JSError (List Task) :=
  applyUpdate z tasks id updates

end TaskModel

namespace Bundle

/-- `TaskModel.updateTask(id, updates)` of `bundle.js`: as in `taskModel.js`,
followed by `Algorithms.autoSchedule(this.tasks)` when the task was found. -/
def updateTask (z : Zone) (tasks : List Task) (id : String) (updates : TaskModel.Updates) :
    Except JSError (List Task) :=
  match TaskModel.getTaskById tasks id with
  | none => pure tasks
  | some _ => do
    let tasks1 ← TaskModel.applyUpdate z tasks id updates
    let r ← Algorithms.autoSchedule z tasks1
    pure r.1

end Bundle

/-! ## Pure form of the scheduling pass -/

namespace Algorithms

/-- The task written by the callback when the start lies before the required
start, for a parent whose `end` is `parentEnd`; `none` when the task is left
alone. -/
def push (z : Zone) (parentEnd : DateStr) (task : Task) : Option Task :=
  match newDate task.start, Utils.addDays z parentEnd (task.gap + 1) with
  | some c, some u =>
    if c < u then
      some { task with
        start := .ymd (u / msPerDay)
        end_ := .ymd (z.setDatePlus (u / msPerDay * msPerDay) task.duration / msPerDay) }
    else none
  | _, _ => none

/-- The task written at position `i` in the array `cur`, if any. -/
def pushAt (z : Zone) (tasks0 cur : List Task) (i : Nat) : Option Task :=
  match cur[i]? with
  | none => none
  | some task =>
    match parentOf tasks0 task with
    | none => none
    | some j =>
      match cur[j]? with
      | none => none
      | some parent => push z parent.end_ task

/-- The callback without the error channel. -/
def visitP (z : Zone) (tasks0 : List Task) (st : List Task × Bool) (i : Nat) :
    List Task × Bool :=
  match pushAt z tasks0 st.1 i with
  | none => st
  | some t => (st.1.set i t, true)

/-- The state after the callback has run on the positions `0 .. k-1`. -/
def passUpTo (z : Zone) (tasks : List Task) (k : Nat) : List Task × Bool :=
  (List.range k).foldl (visitP z tasks) (tasks, false)

/-- The whole pass without the error channel. -/
def runPass (z : Zone) (tasks : List Task) : List Task × Bool :=
  passUpTo z tasks tasks.length

/-- The task at position `j` as the callback sees it when it runs on position
`i`: already in its final state when `j` comes before `i`, still in its initial
state otherwise. -/
def seen (before after : List Task) (i j : Nat) : Option Task :=
  if j < i then after[j]? else before[j]?

/-- The task written at position `i`, in terms of the initial and the final
array. -/
def pushSeen (z : Zone) (before after : List Task) (i : Nat) (task : Task) : Option Task :=
  match parentOf before task with
  | none => none
  | some j =>
    match seen before after i j with
    | none => none
    | some parent => push z parent.end_ task

/-- Two tasks agree on every field the scheduler never writes. -/
def SameStatic (a b : Task) : Prop :=
  a.id = b.id ∧ a.name = b.name ∧ a.duration = b.duration ∧ a.gap = b.gap ∧
    a.progress = b.progress ∧ a.dependencyId = b.dependencyId ∧ a.status = b.status

end Algorithms

/-! ## Properties of task collections -/

/-- Both `start` and `end` of every task are readable dates. -/
def ValidDates (tasks : List Task) : Prop :=
  ∀ t ∈ tasks, (newDate t.start).isSome = true ∧ (newDate t.end_).isSome = true

instance (tasks : List Task) : Decidable (ValidDates tasks) := by
  unfold ValidDates; infer_instance

/-- The dependency constraint between a task and its predecessor:
`start(task) ≥ end(parent) + gap(task) + 1 day`, both dates readable. -/
def satisfied (task parent : Task) : Bool :=
  match dayOf task.start, dayOf parent.end_ with
  | some s, some e => decide (e + task.gap + 1 ≤ s)
  | _, _ => false

/-- The constraint holds for `task` against the predecessor its dependency id
resolves to in `tasks`, if it resolves. -/
def dependencyOk (tasks : List Task) (task : Task) : Bool :=
  match Algorithms.parentOf tasks task with
  | none => true
  | some j =>
    match tasks[j]? with
    | none => true
    | some parent => satisfied task parent

/-- Every task with a resolvable dependency satisfies the dependency
constraint. -/
def Consistent (tasks : List Task) : Prop :=
  ∀ task ∈ tasks, dependencyOk tasks task = true

instance (tasks : List Task) : Decidable (Consistent tasks) := by
  unfold Consistent; infer_instance

/-- The predecessor of the task at position `i`, if its dependency resolves,
stands earlier in the collection. -/
def predecessorEarlier (tasks : List Task) (i : Nat) (task : Task) : Bool :=
  match Algorithms.parentOf tasks task with
  | none => true
  | some j => decide (j < i)

/-- The collection order respects the dependency order. -/
def PredecessorsFirst (tasks : List Task) : Prop :=
  ∀ i, (h : i < tasks.length) → predecessorEarlier tasks i tasks[i] = true

instance (tasks : List Task) : Decidable (PredecessorsFirst tasks) := by
  unfold PredecessorsFirst; infer_instance

/-- The `end` of the task is its `start` moved by `duration` days. -/
def endDerived (t : Task) : Bool :=
  match dayOf t.start with
  | some s => decide (t.end_ = .ymd (s + t.duration))
  | none => false

/-- The ids of the tasks are pairwise distinct. -/
def DistinctIds (tasks : List Task) : Prop :=
  (tasks.map (·.id)).Nodup

instance (tasks : List Task) : Decidable (DistinctIds tasks) := by
  unfold DistinctIds; infer_instance

/-- A task of duration 1 and gap 0 starting on day `start`. -/
def link (id : String) (start : Int) (dep : Option String) : Task :=
  { id := id, name := id, start := .ymd start, end_ := .ymd (start + 1), duration := 1,
    gap := 0, progress := 0, dependencyId := dep, status := "todo" }

/-- The chain A→B→C in the order A, B, C, all starting on day `d`. -/
def chainABC (d : Int) : List Task :=
  [link "A" d none, link "B" d (some "A"), link "C" d (some "B")]

/-- The chain A→B→C in the order C, B, A, all starting on day `d`. -/
def chainCBA (d : Int) : List Task :=
  [link "C" d (some "B"), link "B" d (some "A"), link "A" d none]

/-- A task with the given dates, duration, gap and dependency. -/
def mkTask (id : String) (start end_ duration gap : Int) (dep : Option String) : Task :=
  { id := id, name := id, start := .ymd start, end_ := .ymd end_, duration := duration,
    gap := gap, progress := 0, dependencyId := dep, status := "todo" }

/-- Task A of the two-task scenarios: starts 2024-01-01, duration 5, ends
2024-01-06. -/
def scenarioA : Task :=
  { id := "A", name := "A", start := .ymd (civil 2024 1 1), end_ := .ymd (civil 2024 1 6),
    duration := 5, gap := 0, progress := 0, dependencyId := none, status := "todo" }

/-- Task B of the first scenario: depends on A, gap 2, starts 2024-01-01,
duration 3. -/
def scenarioB : Task :=
  { id := "B", name := "B", start := .ymd (civil 2024 1 1), end_ := .ymd (civil 2024 1 4),
    duration := 3, gap := 2, progress := 0, dependencyId := some "A", status := "todo" }

/-- Task B of the second scenario: depends on A, gap 0, starts 2024-01-10,
duration 3. -/
def scenarioBLate : Task :=
  { id := "B", name := "B", start := .ymd (civil 2024 1 10), end_ := .ymd (civil 2024 1 13),
    duration := 3, gap := 0, progress := 0, dependencyId := some "A", status := "todo" }

/-- A task starting 2024-02-01 with duration 5, for the `updateTask` scenario. -/
def scenarioFeb : Task :=
  { id := "1706745600000", name := "T", start := .ymd (civil 2024 2 1),
    end_ := .ymd (civil 2024 2 6), duration := 5, gap := 0, progress := 0,
    dependencyId := none, status := "todo" }

/-- Task A of the March scenario: starts 2024-03-05, duration 5, ends
2024-03-10, the day America/New_York changes its offset. -/
def marchA : Task := mkTask "A" (civil 2024 3 5) (civil 2024 3 10) 5 0 none

/-- Task B of the March scenario: depends on A, gap 0, starts 2024-03-01,
duration 3, ends 2024-03-04. -/
def marchB : Task := mkTask "B" (civil 2024 3 1) (civil 2024 3 4) 3 0 (some "A")

/-- Task B of the March scenario as the scheduler leaves it in
America/New_York: start 2024-03-10, end 2024-03-12. -/
def marchBPushed : Task := mkTask "B" (civil 2024 3 10) (civil 2024 3 12) 3 0 (some "A")

/-- Task A of the November scenario: starts 2024-10-29, duration 5, ends
2024-11-03, the day America/New_York changes its offset back. -/
def novemberA : Task := mkTask "A" (civil 2024 10 29) (civil 2024 11 3) 5 0 none

/-- Task B of the November scenario: depends on A, gap 0, starts 2024-11-04,
the day after A ends, duration 3. -/
def novemberB : Task := mkTask "B" (civil 2024 11 4) (civil 2024 11 7) 3 0 (some "A")

/-- A task that depends on itself: starts 2024-01-01, duration 1, gap 0. -/
def selfLoop : Task :=
  link "S" (civil 2024 1 1) (some "S")

/-- A task that depends on itself and starts 2024-03-09, duration 1, gap 0. -/
def selfLoopMarch : Task :=
  link "S" (civil 2024 3 9) (some "S")

/-! ## Task creation, deletion and the project range -/

/-- `new Date(Math.min(...dates))`: the earliest of the dates; the Invalid Date
when one of them is invalid (`NaN`) or when there is none (`Infinity`). -/
def mathMin : List JSDate → JSDate
  | [] => none
  | d :: ds =>
    match ds with
    | [] => d
    | _ :: _ =>
      match d, mathMin ds with
      | some a, some b => some (min a b)
      | _, _ => none

/-- `new Date(Math.max(...dates))`: the latest of the dates; the Invalid Date
when one of them is invalid or when there is none. -/
def mathMax : List JSDate → JSDate
  | [] => none
  | d :: ds =>
    match ds with
    | [] => d
    | _ :: _ =>
      match d, mathMax ds with
      | some a, some b => some (max a b)
      | _, _ => none

/-- `date.setHours(0, 0, 0, 0)` on a `Date` object. -/
def setHoursZero (z : Zone) (date : JSDate) : JSDate :=
  match date with
  | some t => some (z.setHoursZero t)
  | none => none

/-- `date.setDate(date.getDate() + n)` on a `Date` object. -/
def setDatePlus (z : Zone) (date : JSDate) (n : Int) : JSDate :=
  match date with
  | some t => some (z.setDatePlus t n)
  | none => none

namespace TaskModel

/-- The `taskData` object passed to `addTask`.  `duration`, `gap` and
`progress` are `none` when the value is absent or not numeric (`parseInt`
gives `NaN`); `dependencyId` is `none` when absent or `null`. -/
structure TaskData where
  name : String
  start : DateStr
  duration : Option Int
  gap : Option Int := none
  progress : Option Int := none
  dependencyId : Option String := none
  deriving DecidableEq, Repr

/-- `TaskModel.addTask(taskData)` (the same code in `taskModel.js` and in
`bundle.js`, up to the `sprintId: null` field of the former, which is not
modelled), called when the clock reads `now`: the task array afterwards and the
returned task, which is the object pushed at the end of the array, read after
the scheduler has run.  When the duration is not numeric `addDays` yields the
Invalid Date and `formatDate` raises, so the duration stored in that case is
never observed. -/
def addTask (z : Zone) (tasks : List Task) (now : Nat) (taskData : TaskData) :
    Except JSError (List Task × Task) :=
  let start := taskData.start
  let endDate : JSDate :=
    match taskData.duration with
    | some d => Utils.addDays z start d
    | none => none
  do
    let e ← Utils.formatDate endDate
    let newTask : Task :=
      { id := toString now
        name := taskData.name
        start := start
        end_ := e
        duration := taskData.duration.getD 0
        gap := taskData.gap.getD 0
        progress := taskData.progress.getD 0
        dependencyId :=
          match taskData.dependencyId with
          | some d => if d = "" then none else some d
          | none => none
        status := "todo" }
    let tasks1 := tasks ++ [newTask]
    let r ← Algorithms.autoSchedule z tasks1
    pure (r.1, (r.1[tasks.length]?).getD newTask)

/-- `TaskModel.deleteTask(id)` of `taskModel.js`:
`this.tasks.filter(t => t.id !== id)`. -/
def deleteTask (tasks : List Task) (id : String) : List Task :=
  tasks.filter (fun t => decide (t.id ≠ id))

/-- `TaskModel.getProjectRange()` of `taskModel.js`, called when the clock reads
`now`: the pair `(start, end)` of `Date` objects. -/
def getProjectRange (z : Zone) (tasks : List Task) (now : Nat) : JSDate × JSDate :=
  if tasks.length = 0 then
    let start : JSDate := setHoursZero z (some (now : Int))
    let end_ := Utils.addDaysDate z start 30
    (start, end_)
  else
    let startDates := tasks.map (fun t => newDate t.start)
    let endDates := tasks.map (fun t => newDate t.end_)
    let minDate := mathMin startDates
    let maxDate := mathMax endDates
    let minDate := setHoursZero z minDate
    let maxDate := setHoursZero z maxDate
    (setDatePlus z minDate (-2), setDatePlus z maxDate 10)

end TaskModel

namespace Bundle

/-- `TaskModel.getProjectRange()` of `bundle.js`, called when the clock reads
`now`: the pair `(start, end)` of `Date` objects. -/
def getProjectRange (z : Zone) (tasks : List Task) (now : Nat) : JSDate × JSDate :=
  if tasks.length = 0 then
    let start : JSDate := setHoursZero z (some (now : Int))
    let end_ := Utils.addDaysDate z start 30
    (start, end_)
  else
    let startDates := tasks.map (fun t => newDate t.start)
    let endDates := tasks.map (fun t => newDate t.end_)
    let minDate := mathMin startDates
    let maxDate := mathMax endDates
    let minDate := setHoursZero z minDate
    let maxDate := setHoursZero z maxDate
    (setDatePlus z minDate (-5), setDatePlus z maxDate 20)

end Bundle

/-- The day `lo` is the earliest start among the tasks. -/
def IsEarliestStart (tasks : List Task) (lo : Int) : Prop :=
  (∃ t ∈ tasks, t.start = .ymd lo) ∧ ∀ t ∈ tasks, ∀ s, t.start = .ymd s → lo ≤ s

/-- The day `hi` is the latest end among the tasks. -/
def IsLatestEnd (tasks : List Task) (hi : Int) : Prop :=
  (∃ t ∈ tasks, t.end_ = .ymd hi) ∧ ∀ t ∈ tasks, ∀ e, t.end_ = .ymd e → e ≤ hi

/-- The first `addTask` call of `loadDemoData`, on a day `d`. -/
def demoFirst (d : Int) : TaskModel.TaskData :=
  { name := "Phase 1: Research", start := .ymd d, duration := some 5, progress := some 100 }

/-- The second `addTask` call of `loadDemoData`: the start is the empty
string. -/
def demoSecond (dep : String) : TaskModel.TaskData :=
  { name := "Phase 2: Design", start := .empty, duration := some 7, dependencyId := some dep,
    gap := some 0, progress := some 40 }

/-- The `addTask` call of `addNewTask`, on a day `d`. -/
def newTaskData (d : Int) : TaskModel.TaskData :=
  { name := "New Task", start := .ymd d, duration := some 1 }

/-- The task data of B of the March scenario: depends on A, gap 0, starts
2024-03-01, duration 3. -/
def marchBData : TaskModel.TaskData :=
  { name := "B", start := .ymd (civil 2024 3 1), duration := some 3, gap := some 0,
    dependencyId := some "A" }

/-! ## Repeated scheduling -/

/-- The array after `n` consecutive calls of `autoSchedule`, each on the array
the previous call left. -/
def autoScheduleTimes (z : Zone) : Nat → List Task → Except JSError (List Task)
  | 0, tasks => pure tasks
  | n + 1, tasks => do
    let r ← Algorithms.autoSchedule z tasks
    autoScheduleTimes z n r.1

/-- Following the dependency links from position `i` reaches, in fewer than
`fuel` links, a task whose dependency does not resolve. -/
def reachesRoot (tasks : List Task) : Nat → Nat → Bool
  | 0, _ => false
  | fuel + 1, i =>
    match tasks[i]? with
    | none => false
    | some task =>
      match Algorithms.parentOf tasks task with
      | none => true
      | some j => reachesRoot tasks fuel j

/-- The dependency links are acyclic: following the links from any task
eventually reaches a task without resolvable dependency. -/
def Acyclic (tasks : List Task) : Prop :=
  ∀ i, i < tasks.length → ∃ k, reachesRoot tasks k i = true

/-- The array after `n` passes, without the error channel. -/
def runPassTimes (z : Zone) : Nat → List Task → List Task
  | 0, tasks => tasks
  | n + 1, tasks => runPassTimes z n (Algorithms.runPass z tasks).1

/-- The chain of dependency links from position `i` ends within `fuel` links
and every link of it meets the dependency constraint. -/
def Settled (tasks : List Task) : Nat → Nat → Prop
  | 0, _ => False
  | fuel + 1, i =>
    ∃ task, tasks[i]? = some task ∧
      (Algorithms.parentOf tasks task = none ∨
        ∃ j parent, Algorithms.parentOf tasks task = some j ∧ tasks[j]? = some parent ∧
          satisfied task parent = true ∧ Settled tasks fuel j)

/-- Task B of the creation scenario: depends on A, gap 2, starts 2024-01-01,
duration 3. -/
def scenarioBData : TaskModel.TaskData :=
  { name := "B", start := .ymd (civil 2024 1 1), duration := some 3, gap := some 2,
    dependencyId := some "A" }

end Gantt

namespace Gantt
open Algorithms

section General

variable {z : Zone}

theorem visit_eq_visitP (tasks0 : List Task) (st : List Task × Bool) (i : Nat) :
    visit z tasks0 st i = .ok (visitP z tasks0 st i) := by
  unfold visit visitP pushAt
  cases h1 : st.1[i]? with
  | none => rfl
  | some task =>
    simp only []
    cases h2 : parentOf tasks0 task with
    | none => rfl
    | some j =>
      simp only []
      cases h3 : st.1[j]? with
      | none => rfl
      | some parent =>
        simp only [push]
        cases h4 : newDate task.start with
        | none =>
          cases h5 : Utils.addDays z parent.end_ (task.gap + 1) <;> simp [dateLt] <;> rfl
        | some c =>
          cases h5 : Utils.addDays z parent.end_ (task.gap + 1) with
          | none => simp [dateLt]; rfl
          | some u =>
            by_cases hlt : c < u
            · simp [dateLt, hlt, Utils.formatDate, newDate, Utils.addDays, Utils.addDaysDate]
              rfl
            · simp [dateLt, hlt]; rfl

theorem foldlM_ok {σ α : Type} (f : σ → α → Except JSError σ) (g : σ → α → σ)
    (h : ∀ s a, f s a = .ok (g s a)) (l : List α) (s : σ) :
    l.foldlM f s = .ok (l.foldl g s) := by
  induction l generalizing s with
  | nil => rfl
  | cons a l ih =>
    simp only [List.foldlM_cons, List.foldl_cons, h]
    exact ih (g s a)

theorem autoSchedule_eq_runPass (tasks : List Task) :
    autoSchedule z tasks = .ok (runPass z tasks) := by
  unfold autoSchedule runPass passUpTo
  exact foldlM_ok _ _ (visit_eq_visitP tasks) _ _

theorem visitP_length (t0 : List Task) (st : List Task × Bool) (i : Nat) :
    (visitP z t0 st i).1.length = st.1.length := by
  unfold visitP
  cases pushAt z t0 st.1 i <;> simp

theorem visitP_get_ne (t0 : List Task) (st : List Task × Bool) (i j : Nat) (h : j ≠ i) :
    (visitP z t0 st i).1[j]? = st.1[j]? := by
  unfold visitP
  cases pushAt z t0 st.1 i with
  | none => rfl
  | some t => simp [List.getElem?_set, Ne.symm h]

theorem fold_get_notMem (t0 : List Task) (is : List Nat) (st : List Task × Bool) (j : Nat)
    (h : j ∉ is) : (is.foldl (visitP z t0) st).1[j]? = st.1[j]? := by
  induction is generalizing st with
  | nil => rfl
  | cons i is ih =>
    simp only [List.foldl_cons]
    rw [ih _ (fun hm => h (List.mem_cons_of_mem _ hm))]
    exact visitP_get_ne t0 st i j (fun e => h (e ▸ List.mem_cons_self _ _))

theorem fold_length (t0 : List Task) (is : List Nat) (st : List Task × Bool) :
    (is.foldl (visitP z t0) st).1.length = st.1.length := by
  induction is generalizing st with
  | nil => rfl
  | cons i is ih => simp only [List.foldl_cons]; rw [ih, visitP_length]

theorem passUpTo_succ (ts : List Task) (k : Nat) :
    passUpTo z ts (k + 1) = visitP z ts (passUpTo z ts k) k := by
  unfold passUpTo
  rw [List.range_succ, List.foldl_append]
  rfl

theorem passUpTo_length (ts : List Task) (k : Nat) : (passUpTo z ts k).1.length = ts.length := by
  unfold passUpTo; rw [fold_length]

theorem runPass_length (ts : List Task) : (runPass z ts).1.length = ts.length :=
  passUpTo_length ts _

theorem passUpTo_get_ge (ts : List Task) (k j : Nat) (h : k ≤ j) :
    (passUpTo z ts k).1[j]? = ts[j]? := by
  unfold passUpTo
  rw [fold_get_notMem]
  simp; omega

theorem passUpTo_add (ts : List Task) (k m : Nat) :
    passUpTo z ts (k + m) = ((List.range m).map (k + ·)).foldl (visitP z ts) (passUpTo z ts k) := by
  unfold passUpTo
  rw [List.range_add, List.foldl_append]

theorem passUpTo_get_lt (ts : List Task) (k m j : Nat) (h : j < k) :
    (passUpTo z ts (k + m)).1[j]? = (passUpTo z ts k).1[j]? := by
  rw [passUpTo_add, fold_get_notMem]
  simp; omega

theorem runPass_get_lt (ts : List Task) (k j : Nat) (hk : k ≤ ts.length) (h : j < k) :
    (runPass z ts).1[j]? = (passUpTo z ts k).1[j]? := by
  unfold runPass
  obtain ⟨m, hm⟩ : ∃ m, ts.length = k + m := ⟨ts.length - k, by omega⟩
  rw [hm]
  exact passUpTo_get_lt ts k m j h

theorem runPass_get_self (ts : List Task) (i : Nat) (hi : i < ts.length) :
    (runPass z ts).1[i]? = (visitP z ts (passUpTo z ts i) i).1[i]? := by
  rw [runPass_get_lt ts (i + 1) i (by omega) (by omega), passUpTo_succ]

theorem passUpTo_get (ts : List Task) (i j : Nat) (hi : i ≤ ts.length) :
    (passUpTo z ts i).1[j]? = seen ts (runPass z ts).1 i j := by
  unfold seen
  split
  · rename_i h; exact (runPass_get_lt ts i j hi h).symm
  · rename_i h; exact passUpTo_get_ge ts i j (by omega)

theorem pushAt_eq_pushSeen (ts : List Task) (i : Nat) (task : Task) (h : ts[i]? = some task) :
    pushAt z ts (passUpTo z ts i).1 i = pushSeen z ts (runPass z ts).1 i task := by
  have hi : i < ts.length := by
    rcases Nat.lt_or_ge i ts.length with h1 | h1
    · exact h1
    · rw [List.getElem?_eq_none h1] at h; cases h
  unfold pushAt pushSeen
  rw [passUpTo_get_ge ts i i (Nat.le_refl i), h]
  simp only []
  cases parentOf ts task with
  | none => rfl
  | some j => simp only []; rw [passUpTo_get ts i j (Nat.le_of_lt hi)]

theorem runPass_get (ts : List Task) (i : Nat) (task : Task) (h : ts[i]? = some task) :
    (runPass z ts).1[i]? = some ((pushSeen z ts (runPass z ts).1 i task).getD task) := by
  have hi : i < ts.length := by
    rcases Nat.lt_or_ge i ts.length with h1 | h1
    · exact h1
    · rw [List.getElem?_eq_none h1] at h; cases h
  rw [runPass_get_self ts i hi]
  unfold visitP
  rw [pushAt_eq_pushSeen ts i task h]
  cases pushSeen z ts (runPass z ts).1 i task with
  | none => simp; rw [passUpTo_get_ge ts i i (Nat.le_refl i), h]
  | some t =>
    simp [List.getElem?_set]
    rw [passUpTo_length]; exact hi

theorem visitP_flag (t0 : List Task) (st : List Task × Bool) (i : Nat) :
    (visitP z t0 st i).2 = (st.2 || (pushAt z t0 st.1 i).isSome) := by
  unfold visitP
  cases pushAt z t0 st.1 i <;> simp

theorem passUpTo_flag (ts : List Task) (k : Nat) :
    (passUpTo z ts k).2 = true ↔ ∃ i, i < k ∧ (pushAt z ts (passUpTo z ts i).1 i).isSome = true := by
  induction k with
  | zero => simp [passUpTo]
  | succ k ih =>
    rw [passUpTo_succ, visitP_flag, Bool.or_eq_true, ih]
    constructor
    · rintro (⟨i, hi, h⟩ | h)
      · exact ⟨i, by omega, h⟩
      · exact ⟨k, by omega, h⟩
    · rintro ⟨i, hi, h⟩
      rcases Nat.lt_or_ge i k with h1 | h1
      · exact Or.inl ⟨i, h1, h⟩
      · have : i = k := by omega
        subst this; exact Or.inr h

theorem pushAt_none_of_ge (ts cur : List Task) (i : Nat) (h : cur.length ≤ i) :
    pushAt z ts cur i = none := by
  unfold pushAt; rw [List.getElem?_eq_none h]

theorem runPass_flag (ts : List Task) :
    (runPass z ts).2 = true ↔
      ∃ i task, ts[i]? = some task ∧ (pushSeen z ts (runPass z ts).1 i task).isSome = true := by
  unfold runPass
  rw [passUpTo_flag]
  constructor
  · rintro ⟨i, hi, h⟩
    have hget : ts[i]? = some (ts[i]) := List.getElem?_eq_getElem hi
    refine ⟨i, ts[i], hget, ?_⟩
    rw [pushAt_eq_pushSeen ts i _ hget] at h
    exact h
  · rintro ⟨i, task, hget, h⟩
    have hi : i < ts.length := by
      rcases Nat.lt_or_ge i ts.length with h1 | h1
      · exact h1
      · rw [List.getElem?_eq_none h1] at hget; cases hget
    refine ⟨i, hi, ?_⟩
    rw [pushAt_eq_pushSeen ts i task hget]
    exact h

theorem push_some (e : DateStr) (task t : Task) (h : push z e task = some t) :
    ∃ c u, task.start = .ymd c ∧ Utils.addDays z e (task.gap + 1) = some u ∧
      c * msPerDay < u ∧
      t = { task with
        start := .ymd (u / msPerDay)
        end_ := .ymd (z.setDatePlus (u / msPerDay * msPerDay) task.duration / msPerDay) } := by
  unfold push at h
  cases hs : task.start with
  | ymd c =>
    cases hu : Utils.addDays z e (task.gap + 1) with
    | none => simp [hs, hu, newDate] at h
    | some u =>
      simp only [hs, hu, newDate] at h
      split at h
      · rename_i hlt
        simp only [Option.some.injEq] at h
        exact ⟨c, u, rfl, rfl, hlt, h.symm⟩
      · cases h
  | empty => simp [hs, newDate] at h
  | invalid => simp [hs, newDate] at h

theorem taskMapFrom_some (k : Nat) (ts : List Task) (key : String) (j : Nat)
    (h : taskMapFrom k ts key = some j) :
    k ≤ j ∧ ∃ t, ts[j - k]? = some t ∧ t.id = key := by
  induction ts generalizing k with
  | nil => simp [taskMapFrom] at h
  | cons t ts ih =>
    unfold taskMapFrom at h
    cases hr : taskMapFrom (k + 1) ts key with
    | some j' =>
      rw [hr] at h
      simp only [Option.some.injEq] at h
      subst h
      obtain ⟨hle, t', ht', hid⟩ := ih (k + 1) hr
      refine ⟨by omega, t', ?_, hid⟩
      have : j' - k = (j' - (k + 1)) + 1 := by omega
      rw [this, List.getElem?_cons_succ]
      exact ht'
    | none =>
      rw [hr] at h
      simp only at h
      by_cases hid : t.id = key
      · simp [hid] at h
        subst h
        exact ⟨Nat.le_refl _, t, by simp, hid⟩
      · simp [hid] at h

theorem taskMapFrom_none (k : Nat) (ts : List Task) (key : String)
    (h : taskMapFrom k ts key = none) : ∀ t ∈ ts, t.id ≠ key := by
  induction ts generalizing k with
  | nil => simp
  | cons t ts ih =>
    unfold taskMapFrom at h
    cases hr : taskMapFrom (k + 1) ts key with
    | some j' => rw [hr] at h; simp at h
    | none =>
      rw [hr] at h
      simp only at h
      intro t' ht'
      rcases List.mem_cons.mp ht' with e | e
      · subst e
        intro hid
        simp [hid] at h
      · exact ih (k + 1) hr t' e

theorem taskMapFrom_congr (k : Nat) (ts ts' : List Task) (key : String)
    (h : ts.map (·.id) = ts'.map (·.id)) :
    taskMapFrom k ts key = taskMapFrom k ts' key := by
  induction ts generalizing k ts' with
  | nil =>
    cases ts' with
    | nil => rfl
    | cons _ _ => simp at h
  | cons t ts ih =>
    cases ts' with
    | nil => simp at h
    | cons t' ts' =>
      simp only [List.map_cons, List.cons.injEq] at h
      unfold taskMapFrom
      rw [ih (k + 1) ts' h.2, h.1]

theorem parentOf_lt (ts : List Task) (task : Task) (j : Nat)
    (h : parentOf ts task = some j) : j < ts.length := by
  unfold parentOf at h
  cases hd : task.dependencyId with
  | none => rw [hd] at h; simp at h
  | some dep =>
    rw [hd] at h
    simp only at h
    split at h
    · cases h
    · obtain ⟨_, t, ht, _⟩ := taskMapFrom_some 0 ts dep j h
      simp only [Nat.sub_zero] at ht
      rcases Nat.lt_or_ge j ts.length with h1 | h1
      · exact h1
      · rw [List.getElem?_eq_none h1] at ht; cases ht

theorem parentOf_congr (ts ts' : List Task) (task task' : Task)
    (h : ts.map (·.id) = ts'.map (·.id)) (hd : task.dependencyId = task'.dependencyId) :
    parentOf ts task = parentOf ts' task' := by
  unfold parentOf taskMapGet
  rw [hd]
  cases task'.dependencyId with
  | none => rfl
  | some dep => simp only; rw [taskMapFrom_congr 0 ts ts' dep h]

theorem push_sameStatic (e : DateStr) (task t : Task) (h : push z e task = some t) :
    SameStatic t task := by
  obtain ⟨c, u, _, _, _, ht⟩ := push_some e task t h
  subst ht
  exact ⟨rfl, rfl, rfl, rfl, rfl, rfl, rfl⟩

theorem pushSeen_cases (ts after : List Task) (i : Nat) (task t : Task)
    (h : pushSeen z ts after i task = some t) :
    ∃ j parent, parentOf ts task = some j ∧ seen ts after i j = some parent ∧
      push z parent.end_ task = some t := by
  unfold pushSeen at h
  cases hp : parentOf ts task with
  | none => rw [hp] at h; cases h
  | some j =>
    rw [hp] at h
    simp only at h
    cases hs : seen ts after i j with
    | none => rw [hs] at h; cases h
    | some parent =>
      rw [hs] at h
      exact ⟨j, parent, rfl, hs, h⟩

theorem runPass_sameStatic (ts : List Task) (i : Nat) (task t : Task)
    (h : ts[i]? = some task) (ht : (runPass z ts).1[i]? = some t) : SameStatic t task := by
  rw [runPass_get ts i task h] at ht
  simp only [Option.some.injEq] at ht
  cases hp : pushSeen z ts (runPass z ts).1 i task with
  | none => rw [hp] at ht; simp at ht; subst ht; exact ⟨rfl, rfl, rfl, rfl, rfl, rfl, rfl⟩
  | some t' =>
    rw [hp] at ht; simp at ht; subst ht
    obtain ⟨j, parent, _, _, hpush⟩ := pushSeen_cases ts _ i task t' hp
    exact push_sameStatic _ _ _ hpush

theorem runPass_get_some (ts : List Task) (i : Nat) (t : Task)
    (ht : (runPass z ts).1[i]? = some t) : ∃ task, ts[i]? = some task := by
  have hi : i < ts.length := by
    rcases Nat.lt_or_ge i ts.length with h1 | h1
    · exact h1
    · rw [List.getElem?_eq_none (by rw [runPass_length]; exact h1)] at ht; cases ht
  exact ⟨ts[i], List.getElem?_eq_getElem hi⟩

theorem runPass_ids (ts : List Task) : (runPass z ts).1.map (·.id) = ts.map (·.id) := by
  apply List.ext_getElem?
  intro i
  simp only [List.getElem?_map]
  cases h : ts[i]? with
  | none =>
    have : ts.length ≤ i := by
      rcases Nat.lt_or_ge i ts.length with h1 | h1
      · rw [List.getElem?_eq_getElem h1] at h; cases h
      · exact h1
    rw [List.getElem?_eq_none (by rw [runPass_length]; exact this)]
  | some task =>
    rw [runPass_get ts i task h]
    have := runPass_sameStatic ts i task _ h (runPass_get (z := z) ts i task h)
    simp [this.1]

theorem getElem?_lt {α : Type} (l : List α) (i : Nat) (a : α) (h : l[i]? = some a) :
    i < l.length := by
  rcases Nat.lt_or_ge i l.length with h1 | h1
  · exact h1
  · rw [List.getElem?_eq_none h1] at h; cases h

theorem seen_some (ts : List Task) (i j : Nat) (hj : j < ts.length) :
    ∃ parent, seen ts (runPass z ts).1 i j = some parent := by
  unfold seen
  split
  · exact ⟨_, List.getElem?_eq_getElem (by rw [runPass_length]; exact hj)⟩
  · exact ⟨_, List.getElem?_eq_getElem hj⟩

theorem runPass_valid (ts : List Task) (i : Nat) (task t : Task)
    (h : ts[i]? = some task) (ht : (runPass z ts).1[i]? = some t)
    (hs : (newDate task.start).isSome = true) (he : (newDate task.end_).isSome = true) :
    (newDate t.start).isSome = true ∧ (newDate t.end_).isSome = true := by
  rw [runPass_get ts i task h] at ht
  simp only [Option.some.injEq] at ht
  cases hp : pushSeen z ts (runPass z ts).1 i task with
  | none => rw [hp] at ht; simp at ht; subst ht; exact ⟨hs, he⟩
  | some t' =>
    rw [hp] at ht; simp at ht; subst ht
    obtain ⟨j, parent, _, _, hpush⟩ := pushSeen_cases ts _ i task t' hp
    obtain ⟨c, pe, _, _, _, e⟩ := push_some _ _ _ hpush
    subst e
    simp [newDate]

theorem seen_valid (ts : List Task) (hv : ValidDates ts) (i j : Nat) (parent : Task)
    (h : seen ts (runPass z ts).1 i j = some parent) :
    (newDate parent.end_).isSome = true := by
  unfold seen at h
  split at h
  · obtain ⟨task, htask⟩ := runPass_get_some ts j parent h
    have hm := hv task (List.getElem?_mem htask)
    exact (runPass_valid ts j task parent htask h hm.1 hm.2).2
  · exact (hv parent (List.getElem?_mem h)).2

theorem parentOf_none_of_absent (ts : List Task) (task : Task)
    (h : task.dependencyId = none ∨ ∀ t ∈ ts, some t.id ≠ task.dependencyId) :
    parentOf ts task = none := by
  unfold parentOf
  cases hd : task.dependencyId with
  | none => rfl
  | some dep =>
    simp only
    split
    · rfl
    · rcases h with h | h
      · rw [hd] at h; cases h
      · cases hm : taskMapGet ts dep with
        | none => rfl
        | some j =>
          obtain ⟨_, t, ht, hid⟩ := taskMapFrom_some 0 ts dep j hm
          exact absurd (by rw [hd, hid]) (h t (List.getElem?_mem ht))

theorem pushSeen_start_le (ts after : List Task) (i : Nat) (task t : Task)
    (h : pushSeen z ts after i task = some t) :
    ∃ c c', task.start = .ymd c ∧ t.start = .ymd c' ∧ c ≤ c' := by
  obtain ⟨j, parent, _, _, hpush⟩ := pushSeen_cases ts after i task t h
  obtain ⟨c, u, hs, _, hlt, e⟩ := push_some _ _ _ hpush
  subst e
  refine ⟨c, _, hs, rfl, ?_⟩
  unfold msPerDay at hlt ⊢
  omega

theorem taskMapFrom_of_absent (k : Nat) (ts : List Task) (key : String)
    (h : ∀ t ∈ ts, t.id ≠ key) : taskMapFrom k ts key = none := by
  cases hm : taskMapFrom k ts key with
  | none => rfl
  | some j =>
    obtain ⟨_, t, ht, hid⟩ := taskMapFrom_some k ts key j hm
    exact absurd hid (h t (List.getElem?_mem ht))

theorem taskMapFrom_distinct (k : Nat) (ts : List Task) (j : Nat) (p : Task)
    (hnd : (ts.map (·.id)).Nodup) (hj : ts[j]? = some p) :
    taskMapFrom k ts p.id = some (k + j) := by
  induction ts generalizing k j with
  | nil => simp at hj
  | cons t ts ih =>
    simp only [List.map_cons, List.nodup_cons, List.mem_map, not_exists, not_and] at hnd
    unfold taskMapFrom
    cases j with
    | zero =>
      simp only [List.getElem?_cons_zero, Option.some.injEq] at hj
      subst hj
      rw [taskMapFrom_of_absent (k + 1) ts t.id (fun t' ht' e => hnd.1 t' ht' e)]
      simp
    | succ j =>
      simp only [List.getElem?_cons_succ] at hj
      rw [ih (k + 1) j hnd.2 hj]
      simp only [Option.some.injEq]
      omega

theorem taskMapFrom_append_last (k : Nat) (ts : List Task) (t : Task) (key : String) :
    taskMapFrom k (ts ++ [t]) key =
      if t.id = key then some (k + ts.length) else taskMapFrom k ts key := by
  induction ts generalizing k with
  | nil => simp [taskMapFrom]
  | cons a ts ih =>
    simp only [List.cons_append, List.length_cons]
    unfold taskMapFrom
    rw [ih (k + 1)]
    by_cases h : t.id = key
    · simp only [if_pos h, Option.some.injEq]
      omega
    · simp only [if_neg h]

end General

section UpdateLemmas

variable {z : Zone}

theorem findFrom_none (k : Nat) (ts : List Task) (id : String) (h : ∀ t ∈ ts, t.id ≠ id) :
    TaskModel.findFrom k ts id = none := by
  induction ts generalizing k with
  | nil => rfl
  | cons t ts ih =>
    unfold TaskModel.findFrom
    rw [if_neg (h t (List.mem_cons_self _ _))]
    exact ih (k + 1) (fun t' ht' => h t' (List.mem_cons_of_mem _ ht'))

theorem findFrom_some (k : Nat) (ts : List Task) (id : String) (i : Nat)
    (h : TaskModel.findFrom k ts id = some i) :
    k ≤ i ∧ ∃ t, ts[i - k]? = some t ∧ t.id = id := by
  induction ts generalizing k with
  | nil => simp [TaskModel.findFrom] at h
  | cons t ts ih =>
    unfold TaskModel.findFrom at h
    split at h
    · rename_i hid
      cases h
      exact ⟨Nat.le_refl _, t, by simp, hid⟩
    · obtain ⟨hle, t', ht', hid⟩ := ih (k + 1) h
      refine ⟨by omega, t', ?_, hid⟩
      have : i - k = (i - (k + 1)) + 1 := by omega
      rw [this, List.getElem?_cons_succ]
      exact ht'

theorem applyUpdate_cases (tasks : List Task) (id : String) (u : TaskModel.Updates) :
    TaskModel.applyUpdate z tasks id u = .error .rangeError ∨
    (TaskModel.getTaskById tasks id = none ∧ TaskModel.applyUpdate z tasks id u = .ok tasks) ∨
    ∃ i t, TaskModel.getTaskById tasks id = some i ∧ i < tasks.length ∧
      TaskModel.applyUpdate z tasks id u = .ok (tasks.set i t) := by
  unfold TaskModel.applyUpdate
  cases hf : TaskModel.getTaskById tasks id with
  | none => exact Or.inr (Or.inl ⟨rfl, rfl⟩)
  | some i =>
    simp only
    obtain ⟨_, t0, ht0, _⟩ := findFrom_some 0 tasks id i hf
    simp only [Nat.sub_zero] at ht0
    have hi : i < tasks.length := getElem?_lt _ _ _ ht0
    rw [ht0]
    simp only
    split
    · generalize Utils.addDays z _ _ = endDate
      cases endDate with
      | none => exact Or.inl rfl
      | some d => exact Or.inr (Or.inr ⟨i, _, rfl, hi, rfl⟩)
    · exact Or.inr (Or.inr ⟨i, _, rfl, hi, rfl⟩)

end UpdateLemmas

/-! ## Claims that hold in every time zone -/

/-- C5: `autoSchedule` never moves a task earlier: in every time zone, for every
collection and every task in it, a readable start before the call is a readable
start after it that is not earlier, and an unreadable start is left as it
was. -/
theorem autoSchedule_start_monotone (z : Zone) (tasks : List Task) :
    ∃ (ts' : List Task) (ch : Bool), autoSchedule z tasks = .ok (ts', ch) ∧ ts'.length = tasks.length ∧
      ∀ (i : Nat) (task : Task), tasks[i]? = some task →
        ∃ t : Task, ts'[i]? = some t ∧
          (∀ s, task.start = .ymd s → ∃ s', t.start = .ymd s' ∧ s ≤ s') ∧
          (newDate task.start = none → t.start = task.start) := by
  refine ⟨(runPass z tasks).1, (runPass z tasks).2, autoSchedule_eq_runPass tasks,
    runPass_length tasks, ?_⟩
  intro i task h
  refine ⟨_, runPass_get tasks i task h, ?_⟩
  cases hp : pushSeen z tasks (runPass z tasks).1 i task with
  | none =>
    exact ⟨fun s hs => ⟨s, hs, Int.le_refl s⟩, fun _ => rfl⟩
  | some t =>
    show (∀ s, task.start = .ymd s → ∃ s', t.start = .ymd s' ∧ s ≤ s') ∧
      (newDate task.start = none → t.start = task.start)
    obtain ⟨c, c', hs, hs', hle⟩ := pushSeen_start_le _ _ _ _ _ hp
    refine ⟨fun s hs2 => ⟨c', hs', ?_⟩, fun hn => ?_⟩
    · rw [hs] at hs2; cases hs2; exact hle
    · rw [hs] at hn; simp [newDate] at hn

/-- C6: a task whose dependency id is absent, or equals no id in the
collection, has all its fields unchanged by `autoSchedule`. -/
theorem autoSchedule_no_dependency_unchanged (z : Zone) (tasks : List Task) :
    ∃ (ts' : List Task) (ch : Bool), autoSchedule z tasks = .ok (ts', ch) ∧
      ∀ (i : Nat) (task : Task), tasks[i]? = some task →
        (task.dependencyId = none ∨ ∀ t ∈ tasks, some t.id ≠ task.dependencyId) →
        ts'[i]? = some task := by
  refine ⟨(runPass z tasks).1, (runPass z tasks).2, autoSchedule_eq_runPass tasks, ?_⟩
  intro i task h hd
  rw [runPass_get tasks i task h]
  unfold pushSeen
  rw [parentOf_none_of_absent tasks task hd]
  rfl

/-- C12 (input on which the claim fails): in `bundle.js`, `updateTask` runs the
scheduler.  With A{2024-01-01, duration 5, end 2024-01-06} and B{depends on A,
gap 0, start 2024-01-10, duration 3}, `updateTask("A", {duration: 10})` moves
the end of A to 2024-01-11 and pushes B, a task other than the one with the
given id, to start 2024-01-12 and end 2024-01-15, in UTC and in
America/New_York alike. -/
theorem bundle_updateTask_moves_other_task :
    Bundle.updateTask Zone.utc [scenarioA, scenarioBLate] "A" { duration := some 10 } =
      .ok [{ scenarioA with duration := 10, end_ := .ymd (civil 2024 1 11) },
           { scenarioBLate with start := .ymd (civil 2024 1 12),
                                end_ := .ymd (civil 2024 1 15) }] ∧
    Bundle.updateTask Zone.newYork [scenarioA, scenarioBLate] "A" { duration := some 10 } =
      .ok [{ scenarioA with duration := 10, end_ := .ymd (civil 2024 1 11) },
           { scenarioBLate with start := .ymd (civil 2024 1 12),
                                end_ := .ymd (civil 2024 1 15) }] ∧
    scenarioBLate.id ≠ "A" ∧
    ({ scenarioBLate with start := .ymd (civil 2024 1 12),
                          end_ := .ymd (civil 2024 1 15) } : Task) ≠ scenarioBLate :=
  ⟨rfl, rfl, by decide, by decide⟩

/-- C12 (amended): `updateTask` of `taskModel.js` does not invoke the
scheduler: for every task collection, id and update, either the call raises
(before anything is written) or it returns with the same number of tasks, every
position other than the one found for the id holding the task it held before;
in particular every task whose id is not the given id has all its fields
unchanged.  (The `bundle.js` copy runs `autoSchedule` after the update.) -/
theorem taskModel_updateTask_others_unchanged (z : Zone) (tasks : List Task) (id : String)
    (u : TaskModel.Updates) :
    TaskModel.updateTask z tasks id u = .error .rangeError ∨
    ∃ ts' : List Task, TaskModel.updateTask z tasks id u = .ok ts' ∧
      ts'.length = tasks.length ∧
      (∀ j : Nat, TaskModel.getTaskById tasks id ≠ some j → ts'[j]? = tasks[j]?) ∧
      (∀ (j : Nat) (t : Task), tasks[j]? = some t → t.id ≠ id → ts'[j]? = some t) := by
  unfold TaskModel.updateTask
  rcases applyUpdate_cases tasks id u with h | ⟨hn, h⟩ | ⟨i, t, hf, hi, h⟩
  · exact Or.inl h
  · exact Or.inr ⟨tasks, h, rfl, fun _ _ => rfl, fun _ _ ht _ => ht⟩
  · refine Or.inr ⟨_, h, by simp, ?_, ?_⟩
    · intro j hj
      have : i ≠ j := fun e => hj (e ▸ hf)
      simp [List.getElem?_set, this]
    · intro j t' ht' hid
      obtain ⟨_, t0, ht0, hid0⟩ := findFrom_some 0 tasks id i hf
      simp only [Nat.sub_zero] at ht0
      have : i ≠ j := by
        intro e
        subst e
        rw [ht0] at ht'
        cases ht'
        exact hid hid0
      simp [List.getElem?_set, this, ht']

/-- C13: for every task collection and every id that no task carries,
`updateTask(id, updates)`, in both copies and for any updates, and
`deleteTask(id)` return without raising and leave the collection as it was:
the same tasks in the same order with the same fields. -/
theorem unknown_id_is_noop (z : Zone) (tasks : List Task) (id : String) (u : TaskModel.Updates)
    (h : ∀ t ∈ tasks, t.id ≠ id) :
    TaskModel.updateTask z tasks id u = .ok tasks ∧
    Bundle.updateTask z tasks id u = .ok tasks ∧
    TaskModel.deleteTask tasks id = tasks := by
  have hf : TaskModel.getTaskById tasks id = none := findFrom_none 0 tasks id h
  refine ⟨?_, ?_, ?_⟩
  · unfold TaskModel.updateTask TaskModel.applyUpdate
    rw [hf]; rfl
  · unfold Bundle.updateTask
    rw [hf]; rfl
  · unfold TaskModel.deleteTask
    rw [List.filter_eq_self]
    intro t ht
    simpa using h t ht

/-- C13 (witness): the id "Z" in the collection A, B, with the update
`{duration: 10}`, in America/New_York. -/
theorem unknown_id_is_noop_witness :
    (∀ t ∈ [scenarioA, scenarioB], t.id ≠ "Z") ∧
    TaskModel.updateTask Zone.newYork [scenarioA, scenarioB] "Z" { duration := some 10 } =
      .ok [scenarioA, scenarioB] ∧
    Bundle.updateTask Zone.newYork [scenarioA, scenarioB] "Z" { duration := some 10 } =
      .ok [scenarioA, scenarioB] ∧
    TaskModel.deleteTask [scenarioA, scenarioB] "Z" = [scenarioA, scenarioB] :=
  ⟨by decide, unknown_id_is_noop Zone.newYork [scenarioA, scenarioB] "Z" { duration := some 10 } (by decide)⟩

/-- C16 (what the code does): for every task data whose start is not a readable
date, `addTask` raises the `RangeError` of `toISOString` (from `formatDate` on
the Invalid Date that `addDays` returns) and appends nothing. -/
theorem addTask_unreadable_start_raises (z : Zone) (tasks : List Task) (now : Nat)
    (taskData : TaskModel.TaskData) (h : newDate taskData.start = none) :
    TaskModel.addTask z tasks now taskData = .error .rangeError := by
  unfold TaskModel.addTask
  cases hd : taskData.duration <;> simp [Utils.addDays, Utils.addDaysDate, h, Utils.formatDate] <;> rfl

/-- C16 (failing input): the first two `addTask` calls of `loadDemoData`, one
millisecond apart on 2024-01-01: the first returns a task, the second, whose
start is the empty string, raises (zone UTC). -/
theorem addTask_unreadable_start_raises_witness :
    newDate (demoSecond "1704067200000").start = none ∧
    TaskModel.addTask Zone.utc [] 1704067200000 (demoFirst (civil 2024 1 1)) =
      .ok ([{ id := "1704067200000", name := "Phase 1: Research",
              start := .ymd (civil 2024 1 1), end_ := .ymd (civil 2024 1 6), duration := 5,
              gap := 0, progress := 100, dependencyId := none, status := "todo" }],
           { id := "1704067200000", name := "Phase 1: Research",
              start := .ymd (civil 2024 1 1), end_ := .ymd (civil 2024 1 6), duration := 5,
              gap := 0, progress := 100, dependencyId := none, status := "todo" }) ∧
    TaskModel.addTask Zone.utc
        [{ id := "1704067200000", name := "Phase 1: Research",
           start := .ymd (civil 2024 1 1), end_ := .ymd (civil 2024 1 6), duration := 5,
           gap := 0, progress := 100, dependencyId := none, status := "todo" }]
        1704067200001 (demoSecond "1704067200000") = .error .rangeError :=
  ⟨rfl, rfl, addTask_unreadable_start_raises Zone.utc _ 1704067200001 (demoSecond "1704067200000") rfl⟩

/-- C17 (failing input): two `addTask` calls (as `addNewTask` makes them) at the
same clock reading 1704067200000: the collection has distinct ids after the
first call, the second task gets the id of the first, and the ids are no longer
distinct (zone UTC). -/
theorem addTask_same_millisecond_same_id :
    ∃ (ts1 ts2 : List Task) (t1 t2 : Task),
      TaskModel.addTask Zone.utc [] 1704067200000 (newTaskData (civil 2024 1 1)) = .ok (ts1, t1) ∧
      TaskModel.addTask Zone.utc ts1 1704067200000 (newTaskData (civil 2024 1 1)) = .ok (ts2, t2) ∧
      DistinctIds ts1 ∧ t1.id = "1704067200000" ∧ t2.id = t1.id ∧ ts2 = [t1, t2] ∧
      ¬ DistinctIds ts2 :=
  ⟨[{ id := "1704067200000", name := "New Task", start := .ymd (civil 2024 1 1),
      end_ := .ymd (civil 2024 1 2), duration := 1, gap := 0, progress := 0,
      dependencyId := none, status := "todo" }],
   [{ id := "1704067200000", name := "New Task", start := .ymd (civil 2024 1 1),
      end_ := .ymd (civil 2024 1 2), duration := 1, gap := 0, progress := 0,
      dependencyId := none, status := "todo" },
    { id := "1704067200000", name := "New Task", start := .ymd (civil 2024 1 1),
      end_ := .ymd (civil 2024 1 2), duration := 1, gap := 0, progress := 0,
      dependencyId := none, status := "todo" }],
   { id := "1704067200000", name := "New Task", start := .ymd (civil 2024 1 1),
      end_ := .ymd (civil 2024 1 2), duration := 1, gap := 0, progress := 0,
      dependencyId := none, status := "todo" },
   { id := "1704067200000", name := "New Task", start := .ymd (civil 2024 1 1),
      end_ := .ymd (civil 2024 1 2), duration := 1, gap := 0, progress := 0,
      dependencyId := none, status := "todo" },
   rfl, rfl, by decide, rfl, rfl, rfl, by decide⟩

/-- C20: `autoSchedule` keeps the number of tasks and their order, and writes
no field other than `start` and `end`: id, name, duration, dependencyId, gap,
progress and status of every task are the same before and after the call. -/
theorem autoSchedule_frame (z : Zone) (tasks : List Task) :
    ∃ (ts' : List Task) (ch : Bool), autoSchedule z tasks = .ok (ts', ch) ∧
      ts'.length = tasks.length ∧
      ∀ (i : Nat) (t : Task), tasks[i]? = some t →
        ∃ t' : Task, ts'[i]? = some t' ∧
          t'.id = t.id ∧ t'.name = t.name ∧ t'.duration = t.duration ∧ t'.gap = t.gap ∧
          t'.progress = t.progress ∧ t'.dependencyId = t.dependencyId ∧
          t'.status = t.status := by
  refine ⟨(runPass z tasks).1, (runPass z tasks).2, autoSchedule_eq_runPass tasks,
    runPass_length tasks, ?_⟩
  intro i t h
  exact ⟨_, runPass_get tasks i t h, runPass_sameStatic tasks i t _ h (runPass_get tasks i t h)⟩


/-! ## Zones without offset changes -/

section Fixed

variable {c : Int}

theorem setDatePlus_fixed (t n : Int) :
    (Zone.fixed c).setDatePlus t n = t + n * msPerDay := by
  simp only [Zone.setDatePlus, Zone.toUTC, Zone.localTime, Zone.fixed]
  omega

theorem addDays_fixed (e n : Int) :
    Utils.addDays (Zone.fixed c) (.ymd e) n = some ((e + n) * msPerDay) := by
  simp only [Utils.addDays, Utils.addDaysDate, newDate, setDatePlus_fixed]
  congr 1
  unfold msPerDay
  omega

theorem mul_msPerDay_div (a : Int) : a * msPerDay / msPerDay = a := by
  unfold msPerDay
  omega

theorem push_some_fixed (e : DateStr) (task t : Task) (h : push (Zone.fixed c) e task = some t) :
    ∃ s pe, task.start = .ymd s ∧ e = .ymd pe ∧ s < pe + (task.gap + 1) ∧
      t = { task with
        start := .ymd (pe + (task.gap + 1))
        end_ := .ymd (pe + (task.gap + 1) + task.duration) } := by
  obtain ⟨s, u, hs, hu, hlt, ht⟩ := push_some e task t h
  cases he : e with
  | ymd pe =>
    rw [he, addDays_fixed] at hu
    simp only [Option.some.injEq] at hu
    subst hu
    refine ⟨s, pe, hs, rfl, ?_, ?_⟩
    · unfold msPerDay at hlt; omega
    · rw [ht, mul_msPerDay_div, setDatePlus_fixed]
      have h2 : ((pe + (task.gap + 1)) * msPerDay + task.duration * msPerDay) / msPerDay
          = pe + (task.gap + 1) + task.duration := by
        unfold msPerDay; omega
      rw [h2]
  | empty => rw [he] at hu; simp [Utils.addDays, Utils.addDaysDate, newDate] at hu
  | invalid => rw [he] at hu; simp [Utils.addDays, Utils.addDaysDate, newDate] at hu

theorem push_none_fixed (pe s : Int) (task : Task) (hs : task.start = .ymd s)
    (h : push (Zone.fixed c) (.ymd pe) task = none) : pe + (task.gap + 1) ≤ s := by
  unfold push at h
  rw [addDays_fixed] at h
  simp only [hs, newDate] at h
  split at h
  · cases h
  · rename_i hn
    unfold msPerDay at hn
    omega

/-- After the pass every task meets the dependency constraint against its
predecessor as the callback saw it. -/
theorem runPass_satisfied_seen (ts : List Task) (hv : ValidDates ts) (i j : Nat) (task : Task)
    (h : ts[i]? = some task) (hp : parentOf ts task = some j) :
    ∃ t parent, (runPass (Zone.fixed c) ts).1[i]? = some t ∧ seen ts (runPass (Zone.fixed c) ts).1 i j = some parent ∧
      satisfied t parent = true := by
  obtain ⟨parent, hparent⟩ := seen_some ts i j (parentOf_lt ts task j hp)
  refine ⟨_, parent, runPass_get ts i task h, hparent, ?_⟩
  have hpe := seen_valid ts hv i j parent hparent
  have hts := (hv task (List.getElem?_mem h)).1
  have hps : pushSeen (Zone.fixed c) ts (runPass (Zone.fixed c) ts).1 i task = push (Zone.fixed c) parent.end_ task := by
    unfold pushSeen; rw [hp]; simp only; rw [hparent]
  rw [hps]
  cases hpush : push (Zone.fixed c) parent.end_ task with
  | some t' =>
    obtain ⟨s0, pe, _, hpe', _, e⟩ := push_some_fixed _ _ _ hpush
    subst e
    simp [satisfied, dayOf, hpe']
    omega
  | none =>
    cases hs : task.start with
    | ymd s0 =>
      cases he : parent.end_ with
      | ymd pe =>
        rw [he] at hpush
        have := push_none_fixed pe s0 task hs hpush
        simp [satisfied, dayOf, hs, he]
        omega
      | empty => rw [he] at hpe; simp [newDate] at hpe
      | invalid => rw [he] at hpe; simp [newDate] at hpe
    | empty => rw [hs] at hts; simp [newDate] at hts
    | invalid => rw [hs] at hts; simp [newDate] at hts

theorem push_fixed (task : Task) (s e : Int) (hs : task.start = .ymd s) :
    push (Zone.fixed c) (.ymd e) task =
      if s < e + (task.gap + 1) then
        some { task with
          start := .ymd (e + (task.gap + 1))
          end_ := .ymd (e + (task.gap + 1) + task.duration) }
      else none := by
  cases hp : push (Zone.fixed c) (.ymd e) task with
  | none =>
    have := push_none_fixed e s task hs hp
    rw [if_neg (by omega)]
  | some t =>
    obtain ⟨s', pe, hs', he, hlt, ht⟩ := push_some_fixed _ _ _ hp
    rw [hs] at hs'
    cases hs'
    cases he
    rw [if_pos hlt, ht]

theorem push_none_of_satisfied (task parent : Task) (h : satisfied task parent = true) :
    push (Zone.fixed c) parent.end_ task = none := by
  cases hp : push (Zone.fixed c) parent.end_ task with
  | none => rfl
  | some t =>
    obtain ⟨s, pe, hs, he, hlt, _⟩ := push_some_fixed _ _ _ hp
    simp [satisfied, dayOf, hs, he] at h
    omega

theorem pushAt_none_of_consistent (ts : List Task) (hc : Consistent ts) (i : Nat) :
    pushAt (Zone.fixed c) ts ts i = none := by
  unfold pushAt
  cases h : ts[i]? with
  | none => rfl
  | some task =>
    simp only
    have hd := hc task (List.getElem?_mem h)
    unfold dependencyOk at hd
    cases hp : parentOf ts task with
    | none => rfl
    | some j =>
      rw [hp] at hd
      simp only at hd ⊢
      cases hj : ts[j]? with
      | none => rfl
      | some parent =>
        rw [hj] at hd
        exact push_none_of_satisfied task parent hd

/-- On a consistent collection the pass writes nothing. -/
theorem runPass_of_consistent (ts : List Task) (hc : Consistent ts) :
    runPass (Zone.fixed c) ts = (ts, false) := by
  have : ∀ k, passUpTo (Zone.fixed c) ts k = (ts, false) := by
    intro k
    induction k with
    | zero => rfl
    | succ k ih =>
      rw [passUpTo_succ, ih]
      unfold visitP
      rw [pushAt_none_of_consistent ts hc k]
  exact this _

/-- When the collection order respects the dependency order, the collection is
consistent after the pass. -/
theorem runPass_consistent (ts : List Task) (hv : ValidDates ts) (ho : PredecessorsFirst ts) :
    Consistent (runPass (Zone.fixed c) ts).1 := by
  intro t hmem
  obtain ⟨i, hi⟩ := List.getElem?_of_mem hmem
  obtain ⟨task, htask⟩ := runPass_get_some ts i t hi
  have hst := runPass_sameStatic ts i task t htask hi
  have hpar : parentOf (runPass (Zone.fixed c) ts).1 t = parentOf ts task :=
    parentOf_congr _ _ _ _ (runPass_ids ts) hst.2.2.2.2.2.1
  unfold dependencyOk
  rw [hpar]
  cases hp : parentOf ts task with
  | none => rfl
  | some j =>
    simp only
    have hlt : i < ts.length := getElem?_lt _ _ _ htask
    have hji := ho i hlt
    have hget : ts[i] = task := by
      have := List.getElem?_eq_getElem hlt
      rw [htask] at this
      exact (Option.some.inj this).symm
    rw [hget] at hji
    unfold predecessorEarlier at hji
    rw [hp] at hji
    simp only [decide_eq_true_eq] at hji
    obtain ⟨t', parent, ht', hseen, hsat⟩ := runPass_satisfied_seen ts hv i j task htask hp
    rw [hi] at ht'
    cases ht'
    unfold seen at hseen
    rw [if_pos hji] at hseen
    rw [hseen]
    exact hsat

theorem pushSeen_start_ne (ts after : List Task) (i : Nat) (task t : Task)
    (h : pushSeen (Zone.fixed c) ts after i task = some t) :
    ∃ s s', task.start = .ymd s ∧ t.start = .ymd s' ∧ s < s' ∧
      t.end_ = .ymd (s' + task.duration) := by
  obtain ⟨j, parent, _, _, hpush⟩ := pushSeen_cases ts after i task t h
  obtain ⟨s, pe, hs, _, hlt, e⟩ := push_some_fixed _ _ _ hpush
  subst e
  exact ⟨s, _, hs, rfl, hlt, rfl⟩

/-- In a zone without offset changes: when the predecessor of each task with a
resolvable dependency stands earlier in a collection with readable dates, one
call of `autoSchedule` leaves the collection consistent, and the call that
follows returns `changed = false` and writes nothing. -/
theorem fixedZone_ordered_consistent (tasks : List Task) (hv : ValidDates tasks)
    (ho : PredecessorsFirst tasks) :
    ∃ (ts' : List Task) (ch : Bool), autoSchedule (Zone.fixed c) tasks = .ok (ts', ch) ∧ Consistent ts' ∧
      autoSchedule (Zone.fixed c) ts' = .ok (ts', false) := by
  refine ⟨(runPass (Zone.fixed c) tasks).1, (runPass (Zone.fixed c) tasks).2, autoSchedule_eq_runPass tasks,
    runPass_consistent tasks hv ho, ?_⟩
  rw [autoSchedule_eq_runPass, runPass_of_consistent _ (runPass_consistent tasks hv ho)]

/-- In a zone without offset changes: on a consistent collection `autoSchedule`
returns `changed = false` and leaves every field of every task as it was. -/
theorem fixedZone_consistent_unchanged (tasks : List Task) (hc : Consistent tasks) :
    autoSchedule (Zone.fixed c) tasks = .ok (tasks, false) := by
  rw [autoSchedule_eq_runPass, runPass_of_consistent tasks hc]

/-- In a zone without offset changes: `autoSchedule` returns `changed = true`
exactly when the start or the end of at least one task differs afterwards. -/
theorem fixedZone_changed_iff (tasks : List Task) :
    ∃ (ts' : List Task) (ch : Bool), autoSchedule (Zone.fixed c) tasks = .ok (ts', ch) ∧
      (ch = true ↔ ∃ (i : Nat) (t t' : Task), tasks[i]? = some t ∧ ts'[i]? = some t' ∧
        (t'.start ≠ t.start ∨ t'.end_ ≠ t.end_)) := by
  refine ⟨(runPass (Zone.fixed c) tasks).1, (runPass (Zone.fixed c) tasks).2, autoSchedule_eq_runPass tasks, ?_⟩
  rw [runPass_flag]
  constructor
  · rintro ⟨i, task, h, hsome⟩
    obtain ⟨t, ht⟩ := Option.isSome_iff_exists.mp hsome
    refine ⟨i, task, t, h, ?_, Or.inl ?_⟩
    · rw [runPass_get tasks i task h, ht]; rfl
    · obtain ⟨c, c', hs, hs', hlt, _⟩ := pushSeen_start_ne _ _ _ _ _ ht
      rw [hs, hs']
      intro e
      cases e
      omega
  · rintro ⟨i, t, t', h, h', hne⟩
    refine ⟨i, t, h, ?_⟩
    rw [runPass_get tasks i t h] at h'
    cases hp : pushSeen (Zone.fixed c) tasks (runPass (Zone.fixed c) tasks).1 i t with
    | some _ => rfl
    | none =>
      rw [hp] at h'
      simp only [Option.getD_none, Option.some.injEq] at h'
      subst h'
      rcases hne with hne | hne <;> exact absurd rfl hne

/-- In a zone without offset changes: if every task has `end = start + duration`
days before the call, every task has it after `autoSchedule`. -/
theorem fixedZone_preserves_endDerived (tasks : List Task)
    (hd : ∀ t ∈ tasks, endDerived t = true) :
    ∃ (ts' : List Task) (ch : Bool), autoSchedule (Zone.fixed c) tasks = .ok (ts', ch) ∧ ∀ t ∈ ts', endDerived t = true := by
  refine ⟨(runPass (Zone.fixed c) tasks).1, (runPass (Zone.fixed c) tasks).2, autoSchedule_eq_runPass tasks, ?_⟩
  intro t hmem
  obtain ⟨i, hi⟩ := List.getElem?_of_mem hmem
  obtain ⟨task, htask⟩ := runPass_get_some tasks i t hi
  rw [runPass_get tasks i task htask] at hi
  simp only [Option.some.injEq] at hi
  cases hp : pushSeen (Zone.fixed c) tasks (runPass (Zone.fixed c) tasks).1 i task with
  | none =>
    rw [hp] at hi
    simp only [Option.getD_none] at hi
    subst hi
    exact hd _ (List.getElem?_mem htask)
  | some t' =>
    rw [hp] at hi
    simp only [Option.getD_some] at hi
    subst hi
    obtain ⟨j, parent, _, _, hpush⟩ := pushSeen_cases _ _ _ _ _ hp
    obtain ⟨c, pe, _, _, _, e⟩ := push_some_fixed _ _ _ hpush
    subst e
    simp [endDerived, dayOf]

/-- In a zone without offset changes: on `[A, B]` with B depending on A,
`autoSchedule` sets `B.start` to `max(B.start, A.end + gap(B) + 1 day)` and,
when it was raised, `B.end` to the new start plus `B.duration` days. -/
theorem fixedZone_pair (A B : Task) (s e : Int)
    (hA : A.dependencyId = none) (hB : B.dependencyId = some A.id)
    (hne : A.id ≠ "") (hid : B.id ≠ A.id)
    (hs : B.start = .ymd s) (he : A.end_ = .ymd e) :
    ∃ B' : Task, autoSchedule (Zone.fixed c) [A, B] = .ok ([A, B'], decide (s < e + B.gap + 1)) ∧
      B'.start = .ymd (max s (e + B.gap + 1)) ∧
      (s < e + B.gap + 1 →
        B' = { B with start := .ymd (e + B.gap + 1),
                      end_ := .ymd (e + B.gap + 1 + B.duration) }) ∧
      (¬ s < e + B.gap + 1 → B' = B) := by
  have hpA : parentOf [A, B] A = none := by simp [parentOf, hA]
  have hpB : parentOf [A, B] B = some 0 := by
    simp [parentOf, hB, hne, taskMapGet, taskMapFrom, hid]
  rw [autoSchedule_eq_runPass]
  by_cases hlt : s < e + B.gap + 1
  · have hlt' : s < e + (B.gap + 1) := by omega
    refine ⟨{ B with start := .ymd (e + B.gap + 1),
                     end_ := .ymd (e + B.gap + 1 + B.duration) }, ?_, ?_, fun _ => rfl,
      fun h => absurd hlt h⟩
    · simp [runPass, passUpTo, List.range_succ, List.range_zero, visitP, pushAt, hpA, hpB,
        he, push_fixed B s e hs, hlt, hlt']
      omega
    · simp only [DateStr.ymd.injEq]; omega
  · have hlt' : ¬ s < e + (B.gap + 1) := by omega
    refine ⟨B, ?_, ?_, fun h => absurd h hlt, fun _ => rfl⟩
    · simp [runPass, passUpTo, List.range_succ, List.range_zero, visitP, pushAt, hpA, hpB,
        he, push_fixed B s e hs, hlt, hlt']
    · rw [hs]; simp only [DateStr.ymd.injEq]; omega

theorem runPassTimes_succ (n : Nat) (ts : List Task) :
    runPassTimes (Zone.fixed c) (n + 1) ts = (runPass (Zone.fixed c) (runPassTimes (Zone.fixed c) n ts)).1 := by
  induction n generalizing ts with
  | zero => rfl
  | succ n ih =>
    show runPassTimes (Zone.fixed c) (n + 1) (runPass (Zone.fixed c) ts).1 = _
    rw [ih (runPass (Zone.fixed c) ts).1]
    rfl

theorem autoScheduleTimes_eq (n : Nat) (ts : List Task) :
    autoScheduleTimes (Zone.fixed c) n ts = .ok (runPassTimes (Zone.fixed c) n ts) := by
  induction n generalizing ts with
  | zero => rfl
  | succ n ih =>
    unfold autoScheduleTimes
    rw [autoSchedule_eq_runPass]
    exact ih (runPass (Zone.fixed c) ts).1

theorem parentOf_runPass (ts : List Task) (i : Nat) (task t : Task)
    (h : ts[i]? = some task) (ht : (runPass (Zone.fixed c) ts).1[i]? = some t) :
    parentOf (runPass (Zone.fixed c) ts).1 t = parentOf ts task :=
  parentOf_congr _ _ _ _ (runPass_ids ts) (runPass_sameStatic ts i task t h ht).2.2.2.2.2.1

theorem validDates_runPass (ts : List Task) (hv : ValidDates ts) : ValidDates (runPass (Zone.fixed c) ts).1 := by
  intro t hmem
  obtain ⟨i, hi⟩ := List.getElem?_of_mem hmem
  obtain ⟨task, htask⟩ := runPass_get_some ts i t hi
  have hm := hv task (List.getElem?_mem htask)
  exact runPass_valid ts i task t htask hi hm.1 hm.2

theorem runPass_get_none (ts : List Task) (i : Nat) (h : ts[i]? = none) :
    (runPass (Zone.fixed c) ts).1[i]? = none := by
  cases hr : (runPass (Zone.fixed c) ts).1[i]? with
  | none => rfl
  | some t =>
    obtain ⟨task, htask⟩ := runPass_get_some ts i t hr
    rw [h] at htask
    cases htask

theorem reachesRoot_runPass (ts : List Task) (f i : Nat) :
    reachesRoot (runPass (Zone.fixed c) ts).1 f i = reachesRoot ts f i := by
  induction f generalizing i with
  | zero => rfl
  | succ f ih =>
    unfold reachesRoot
    cases h : ts[i]? with
    | none => rw [runPass_get_none ts i h]
    | some task =>
      have hget := runPass_get (z := Zone.fixed c) ts i task h
      rw [hget]
      simp only
      rw [parentOf_runPass ts i task _ h hget]
      cases parentOf ts task with
      | none => rfl
      | some j => exact ih j

theorem validDates_runPassTimes (n : Nat) (ts : List Task) (hv : ValidDates ts) :
    ValidDates (runPassTimes (Zone.fixed c) n ts) := by
  induction n with
  | zero => exact hv
  | succ n ih => rw [runPassTimes_succ]; exact validDates_runPass _ ih

theorem reachesRoot_runPassTimes (n : Nat) (ts : List Task) (f i : Nat) :
    reachesRoot (runPassTimes (Zone.fixed c) n ts) f i = reachesRoot ts f i := by
  induction n with
  | zero => rfl
  | succ n ih => rw [runPassTimes_succ, reachesRoot_runPass, ih]

theorem runPassTimes_length (n : Nat) (ts : List Task) :
    (runPassTimes (Zone.fixed c) n ts).length = ts.length := by
  induction n with
  | zero => rfl
  | succ n ih => rw [runPassTimes_succ, runPass_length, ih]

theorem runPassTimes_ids (n : Nat) (ts : List Task) :
    (runPassTimes (Zone.fixed c) n ts).map (·.id) = ts.map (·.id) := by
  induction n with
  | zero => rfl
  | succ n ih => rw [runPassTimes_succ, runPass_ids, ih]

theorem runPass_end_valid (ts : List Task) (i : Nat) (task t : Task)
    (h : ts[i]? = some task) (ht : (runPass (Zone.fixed c) ts).1[i]? = some t)
    (he : (newDate task.end_).isSome = true) : (newDate t.end_).isSome = true := by
  rw [runPass_get ts i task h] at ht
  simp only [Option.some.injEq] at ht
  cases hp : pushSeen (Zone.fixed c) ts (runPass (Zone.fixed c) ts).1 i task with
  | none => rw [hp] at ht; simp at ht; subst ht; exact he
  | some t' =>
    rw [hp] at ht; simp at ht; subst ht
    obtain ⟨c, c', _, _, _, hend⟩ := pushSeen_start_ne ts _ i task t' hp
    rw [hend]; rfl

theorem runPass_endDerived (ts : List Task) (i : Nat) (task t : Task)
    (h : ts[i]? = some task) (ht : (runPass (Zone.fixed c) ts).1[i]? = some t)
    (hd : endDerived task = true) : endDerived t = true := by
  rw [runPass_get ts i task h] at ht
  simp only [Option.some.injEq] at ht
  cases hp : pushSeen (Zone.fixed c) ts (runPass (Zone.fixed c) ts).1 i task with
  | none => rw [hp] at ht; simp at ht; subst ht; exact hd
  | some t' =>
    rw [hp] at ht; simp at ht; subst ht
    obtain ⟨j, parent, _, _, hpush⟩ := pushSeen_cases _ _ _ _ _ hp
    obtain ⟨c, pe, _, _, _, e⟩ := push_some_fixed _ _ _ hpush
    subst e
    simp [endDerived, dayOf]

theorem runPass_satisfied_local (ts : List Task) (i j : Nat) (task parent : Task)
    (h : ts[i]? = some task) (hp : parentOf ts task = some j)
    (hts : (newDate task.start).isSome = true)
    (hseen : seen ts (runPass (Zone.fixed c) ts).1 i j = some parent)
    (hpe : (newDate parent.end_).isSome = true) :
    ∃ t, (runPass (Zone.fixed c) ts).1[i]? = some t ∧ satisfied t parent = true := by
  refine ⟨_, runPass_get ts i task h, ?_⟩
  have hps : pushSeen (Zone.fixed c) ts (runPass (Zone.fixed c) ts).1 i task = push (Zone.fixed c) parent.end_ task := by
    unfold pushSeen; rw [hp]; simp only; rw [hseen]
  rw [hps]
  cases hpush : push (Zone.fixed c) parent.end_ task with
  | some t' =>
    obtain ⟨c, pe, _, hpe', _, e⟩ := push_some_fixed _ _ _ hpush
    subst e
    simp [satisfied, dayOf, hpe']
    omega
  | none =>
    cases hs : task.start with
    | ymd c =>
      cases he : parent.end_ with
      | ymd pe =>
        rw [he] at hpush
        have := push_none_fixed pe c task hs hpush
        simp [satisfied, dayOf, hs, he]
        omega
      | empty => rw [he] at hpe; simp [newDate] at hpe
      | invalid => rw [he] at hpe; simp [newDate] at hpe
    | empty => rw [hs] at hts; simp [newDate] at hts
    | invalid => rw [hs] at hts; simp [newDate] at hts

theorem addTask_eq (tasks : List Task) (now : Nat) (taskData : TaskModel.TaskData) (s d : Int)
    (hs : taskData.start = .ymd s) (hd : taskData.duration = some d) (nt : Task)
    (hnt : nt = { id := toString now, name := taskData.name, start := .ymd s,
                  end_ := .ymd (s + d), duration := d, gap := taskData.gap.getD 0,
                  progress := taskData.progress.getD 0,
                  dependencyId :=
                    match taskData.dependencyId with
                    | some x => if x = "" then none else some x
                    | none => none,
                  status := "todo" }) :
    TaskModel.addTask (Zone.fixed c) tasks now taskData =
      .ok ((runPass (Zone.fixed c) (tasks ++ [nt])).1,
           ((runPass (Zone.fixed c) (tasks ++ [nt])).1[tasks.length]?).getD nt) := by
  subst hnt
  unfold TaskModel.addTask
  simp only [hd, hs, addDays_fixed, Utils.formatDate, mul_msPerDay_div,
    autoSchedule_eq_runPass, Option.getD_some]
  rfl

/-- In a zone without offset changes: `addTask` with a fresh id, a readable start,
an integer duration and a dependency on a task of the collection (distinct ids,
readable end) appends the returned task as the last element, with status
'todo', `end = start + duration` days and
`start ≥ end(predecessor) + gap + 1 day`. -/
theorem fixedZone_addTask_appends_scheduled (tasks : List Task) (now : Nat)
    (taskData : TaskModel.TaskData) (s d : Int) (j : Nat) (parent : Task)
    (hnd : DistinctIds tasks) (hfresh : ∀ t ∈ tasks, t.id ≠ toString now)
    (hs : taskData.start = .ymd s) (hd : taskData.duration = some d)
    (hj : tasks[j]? = some parent) (hdep : taskData.dependencyId = some parent.id)
    (hne : parent.id ≠ "") (hpe : (newDate parent.end_).isSome = true) :
    ∃ (ts' : List Task) (ret parent' : Task),
      TaskModel.addTask (Zone.fixed c) tasks now taskData = .ok (ts', ret) ∧
      ts'.length = tasks.length + 1 ∧ ts'.getLast? = some ret ∧
      ret.id = toString now ∧ ret.status = "todo" ∧ ret.duration = d ∧
      endDerived ret = true ∧
      ts'[j]? = some parent' ∧ parent'.id = parent.id ∧ satisfied ret parent' = true := by
  have hjlt : j < tasks.length := getElem?_lt _ _ _ hj
  obtain ⟨nt, hnt⟩ : ∃ nt : Task, nt =
      { id := toString now, name := taskData.name, start := .ymd s,
        end_ := .ymd (s + d), duration := d, gap := taskData.gap.getD 0,
        progress := taskData.progress.getD 0,
        dependencyId :=
          match taskData.dependencyId with
          | some x => if x = "" then none else some x
          | none => none,
        status := "todo" } := ⟨_, rfl⟩
  have hntid : nt.id = toString now := by rw [hnt]
  have hntdep : nt.dependencyId = some parent.id := by rw [hnt]; simp [hdep, hne]
  have hntstart : nt.start = .ymd s := by rw [hnt]
  have hnted : endDerived nt = true := by rw [hnt]; simp [endDerived, dayOf]
  have hget : (tasks ++ [nt])[tasks.length]? = some nt := by simp
  have hgetj : (tasks ++ [nt])[j]? = some parent := by
    rw [List.getElem?_append_left hjlt]; exact hj
  have hpar : parentOf (tasks ++ [nt]) nt = some j := by
    unfold parentOf taskMapGet
    rw [hntdep]
    simp only [if_neg hne]
    rw [taskMapFrom_append_last]
    have hneq : nt.id ≠ parent.id := by
      rw [hntid]
      exact fun e => hfresh parent (List.getElem?_mem hj) e.symm
    rw [if_neg hneq]
    have := taskMapFrom_distinct 0 tasks j parent hnd hj
    simpa using this
  -- the predecessor after the pass
  have hlen : (runPass (Zone.fixed c) (tasks ++ [nt])).1.length = tasks.length + 1 := by
    rw [runPass_length]; simp
  obtain ⟨parent', hparent'⟩ : ∃ p, (runPass (Zone.fixed c) (tasks ++ [nt])).1[j]? = some p :=
    ⟨_, List.getElem?_eq_getElem (by rw [hlen]; omega)⟩
  have hseen : seen (tasks ++ [nt]) (runPass (Zone.fixed c) (tasks ++ [nt])).1 tasks.length j = some parent' := by
    unfold seen
    rw [if_pos hjlt]
    exact hparent'
  have hpe' := runPass_end_valid _ j parent parent' hgetj hparent' hpe
  obtain ⟨ret, hret, hsat⟩ := runPass_satisfied_local (tasks ++ [nt]) tasks.length j nt parent'
    hget hpar (by rw [hntstart]; rfl) hseen hpe'
  have hsame := runPass_sameStatic _ _ nt ret hget hret
  have hsameP := runPass_sameStatic _ _ parent parent' hgetj hparent'
  refine ⟨(runPass (Zone.fixed c) (tasks ++ [nt])).1, ret, parent', ?_, hlen, ?_, ?_, ?_, ?_, ?_,
    hparent', hsameP.1, hsat⟩
  · rw [addTask_eq tasks now taskData s d hs hd nt hnt, hret]
    rfl
  · rw [List.getLast?_eq_getElem?, hlen]
    simpa using hret
  · rw [hsame.1]; exact hntid
  · rw [hsame.2.2.2.2.2.2, hnt]
  · rw [hsame.2.2.1, hnt]
  · exact runPass_endDerived _ _ nt ret hget hret hnted

theorem reachesRoot_mono (ts : List Task) (f i : Nat) (h : reachesRoot ts f i = true) :
    reachesRoot ts (f + 1) i = true := by
  induction f generalizing i with
  | zero => simp [reachesRoot] at h
  | succ f ih =>
    unfold reachesRoot at h ⊢
    cases hget : ts[i]? with
    | none => rw [hget] at h; cases h
    | some task =>
      rw [hget] at h
      simp only at h ⊢
      cases hp : parentOf ts task with
      | none => rfl
      | some j =>
        rw [hp] at h
        exact ih j h

theorem reachesRoot_mono_le (ts : List Task) (f g i : Nat) (hfg : f ≤ g)
    (h : reachesRoot ts f i = true) : reachesRoot ts g i = true := by
  induction hfg with
  | refl => exact h
  | step _ ih => exact reachesRoot_mono ts _ i ih

theorem reachesRoot_lt (ts : List Task) (f i : Nat) (h : reachesRoot ts f i = true) :
    i < ts.length := by
  cases f with
  | zero => simp [reachesRoot] at h
  | succ f =>
    unfold reachesRoot at h
    cases hget : ts[i]? with
    | none => rw [hget] at h; cases h
    | some task => exact getElem?_lt _ _ _ hget

theorem reachesRoot_stable_succ (ts : List Task) (f : Nat)
    (h : ∀ i, reachesRoot ts (f + 1) i = reachesRoot ts f i) :
    ∀ i, reachesRoot ts (f + 2) i = reachesRoot ts (f + 1) i := by
  intro i
  show reachesRoot ts (f + 1 + 1) i = reachesRoot ts (f + 1) i
  conv => lhs; unfold reachesRoot
  conv => rhs; unfold reachesRoot
  cases ts[i]? with
  | none => rfl
  | some task =>
    simp only
    cases parentOf ts task with
    | none => rfl
    | some j => exact h j

theorem reachesRoot_stable_all (ts : List Task) (f : Nat)
    (h : ∀ i, reachesRoot ts (f + 1) i = reachesRoot ts f i) (m : Nat) :
    ∀ i, reachesRoot ts (f + m) i = reachesRoot ts f i := by
  induction m generalizing f with
  | zero => intro i; rfl
  | succ m ih =>
    intro i
    have h2 := ih (f + 1) (reachesRoot_stable_succ ts f h) i
    rw [h i] at h2
    rw [← h2]
    congr 1
    omega

theorem reachesRoot_card (ts : List Task) (f : Nat) :
    f ≤ ((Finset.range ts.length).filter (fun i => reachesRoot ts f i = true)).card ∨
      ∀ i, reachesRoot ts (f + 1) i = reachesRoot ts f i := by
  induction f with
  | zero => exact Or.inl (Nat.zero_le _)
  | succ f ih =>
    rcases ih with hle | hst
    · by_cases hall : ∀ i, reachesRoot ts (f + 1) i = reachesRoot ts f i
      · exact Or.inr (reachesRoot_stable_succ ts f hall)
      · left
        obtain ⟨i, hi⟩ := not_forall.mp hall
        have h1 : reachesRoot ts f i = false := by
          cases h : reachesRoot ts f i with
          | false => rfl
          | true => exact absurd (by rw [reachesRoot_mono ts f i h, h]) hi
        have h2 : reachesRoot ts (f + 1) i = true := by
          cases h : reachesRoot ts (f + 1) i with
          | true => rfl
          | false => exact absurd (by rw [h, h1]) hi
        have hlt : ((Finset.range ts.length).filter (fun i => reachesRoot ts f i = true)).card <
            ((Finset.range ts.length).filter (fun i => reachesRoot ts (f + 1) i = true)).card := by
          apply Finset.card_lt_card
          rw [Finset.ssubset_iff_of_subset]
          · refine ⟨i, ?_, ?_⟩
            · simp only [Finset.mem_filter, Finset.mem_range]
              exact ⟨reachesRoot_lt ts _ i h2, h2⟩
            · simp [h1]
          · intro a ha
            simp only [Finset.mem_filter, Finset.mem_range] at ha ⊢
            exact ⟨ha.1, reachesRoot_mono ts f a ha.2⟩
        omega
    · exact Or.inr (reachesRoot_stable_succ ts f hst)

/-- A chain of dependency links that ends at all ends within as many links as
there are tasks. -/
theorem reachesRoot_within_length (ts : List Task) (k i : Nat)
    (h : reachesRoot ts k i = true) : reachesRoot ts ts.length i = true := by
  rcases reachesRoot_card ts ts.length with hle | hst
  · have hsub : (Finset.range ts.length).filter (fun i => reachesRoot ts ts.length i = true) ⊆
        Finset.range ts.length := Finset.filter_subset _ _
    have heq := Finset.eq_of_subset_of_card_le hsub (by simpa using hle)
    have hmem : i ∈ Finset.range ts.length := by
      simp only [Finset.mem_range]; exact reachesRoot_lt ts k i h
    rw [← heq] at hmem
    simp only [Finset.mem_filter] at hmem
    exact hmem.2
  · rcases Nat.le_total k ts.length with hk | hk
    · exact reachesRoot_mono_le ts k _ i hk h
    · obtain ⟨m, hm⟩ : ∃ m, k = ts.length + m := ⟨k - ts.length, by omega⟩
      rw [hm, reachesRoot_stable_all ts ts.length hst m i] at h
      exact h

theorem runPass_get_root (ts : List Task) (i : Nat) (task : Task) (h : ts[i]? = some task)
    (hp : parentOf ts task = none) : (runPass (Zone.fixed c) ts).1[i]? = some task := by
  rw [runPass_get ts i task h]
  unfold pushSeen
  rw [hp]
  rfl

theorem runPass_get_satisfied (ts : List Task) (i j : Nat) (task parent : Task)
    (h : ts[i]? = some task) (hp : parentOf ts task = some j)
    (hj : ts[j]? = some parent) (hj' : (runPass (Zone.fixed c) ts).1[j]? = some parent)
    (hsat : satisfied task parent = true) : (runPass (Zone.fixed c) ts).1[i]? = some task := by
  rw [runPass_get ts i task h]
  have hseen : seen ts (runPass (Zone.fixed c) ts).1 i j = some parent := by
    unfold seen
    split
    · exact hj'
    · exact hj
  unfold pushSeen
  rw [hp]
  simp only
  rw [hseen]
  simp only
  rw [push_none_of_satisfied task parent hsat]
  rfl

theorem settled_stable (ts : List Task) (f i : Nat) (h : Settled ts f i) :
    (runPass (Zone.fixed c) ts).1[i]? = ts[i]? := by
  induction f generalizing i with
  | zero => exact absurd h (by simp [Settled])
  | succ f ih =>
    obtain ⟨task, hget, hcase⟩ := h
    rw [hget]
    rcases hcase with hp | ⟨j, parent, hp, hj, hsat, hset⟩
    · exact runPass_get_root ts i task hget hp
    · have hj' : (runPass (Zone.fixed c) ts).1[j]? = some parent := by rw [ih j hset]; exact hj
      exact runPass_get_satisfied ts i j task parent hget hp hj hj' hsat

theorem settled_runPass (ts : List Task) (f i : Nat) (h : Settled ts f i) :
    Settled (runPass (Zone.fixed c) ts).1 f i := by
  induction f generalizing i with
  | zero => exact absurd h (by simp [Settled])
  | succ f ih =>
    have hst := settled_stable (c := c) ts (f + 1) i h
    obtain ⟨task, hget, hcase⟩ := h
    rw [hget] at hst
    have hpar := parentOf_runPass ts i task task hget hst
    refine ⟨task, hst, ?_⟩
    rcases hcase with hp | ⟨j, parent, hp, hj, hsat, hset⟩
    · exact Or.inl (by rw [hpar]; exact hp)
    · refine Or.inr ⟨j, parent, by rw [hpar]; exact hp, ?_, hsat, ih j hset⟩
      rw [settled_stable ts f j hset]
      exact hj

theorem settled_progress (ts : List Task) (hv : ValidDates ts) (f i : Nat)
    (hr : reachesRoot ts (f + 1) i = true)
    (hall : ∀ j, reachesRoot ts f j = true → Settled ts f j) :
    Settled (runPass (Zone.fixed c) ts).1 (f + 1) i := by
  unfold reachesRoot at hr
  cases hget : ts[i]? with
  | none => rw [hget] at hr; cases hr
  | some task =>
    rw [hget] at hr
    simp only at hr
    cases hp : parentOf ts task with
    | none =>
      have hst := runPass_get_root (c := c) ts i task hget hp
      exact ⟨task, hst, Or.inl (by rw [parentOf_runPass ts i task task hget hst]; exact hp)⟩
    | some j =>
      rw [hp] at hr
      simp only at hr
      have hset := hall j hr
      have hstab := settled_stable (c := c) ts f j hset
      obtain ⟨t, parent, ht, hseen, hsat⟩ := runPass_satisfied_seen ts hv i j task hget hp
      have hj' : (runPass (Zone.fixed c) ts).1[j]? = some parent := by
        unfold seen at hseen
        split at hseen
        · exact hseen
        · rw [hstab]; exact hseen
      exact ⟨t, ht, Or.inr ⟨j, parent, by rw [parentOf_runPass ts i task t hget ht]; exact hp,
        hj', hsat, settled_runPass ts f j hset⟩⟩

theorem settled_after (tasks : List Task) (hv : ValidDates tasks) (k i : Nat)
    (hr : reachesRoot tasks k i = true) : Settled (runPassTimes (Zone.fixed c) k tasks) k i := by
  induction k generalizing i with
  | zero => simp [reachesRoot] at hr
  | succ k ih =>
    rw [runPassTimes_succ]
    apply settled_progress _ (validDates_runPassTimes k tasks hv) k i
    · rw [reachesRoot_runPassTimes]; exact hr
    · intro j hj
      rw [reachesRoot_runPassTimes] at hj
      exact ih j hj

theorem consistent_of_settled (ts : List Task) (f : Nat)
    (h : ∀ i, i < ts.length → Settled ts f i) : Consistent ts := by
  intro task hmem
  obtain ⟨i, hi⟩ := List.getElem?_of_mem hmem
  have hs := h i (getElem?_lt _ _ _ hi)
  cases f with
  | zero => exact absurd hs (by simp [Settled])
  | succ f =>
    obtain ⟨task', hget, hcase⟩ := hs
    rw [hi] at hget
    cases hget
    unfold dependencyOk
    rcases hcase with hp | ⟨j, parent, hp, hj, hsat, _⟩
    · rw [hp]
    · rw [hp]
      simp only
      rw [hj]
      exact hsat

/-- In a zone without offset changes: for every collection of `n` tasks with
readable dates and acyclic dependency links, in any order, after `n`
consecutive calls of `autoSchedule` the collection is consistent and one
further call returns `changed = false`. -/
theorem fixedZone_converges (tasks : List Task) (hv : ValidDates tasks)
    (hac : Acyclic tasks) :
    ∃ ts' : List Task, autoScheduleTimes (Zone.fixed c) tasks.length tasks = .ok ts' ∧ Consistent ts' ∧
      autoSchedule (Zone.fixed c) ts' = .ok (ts', false) := by
  have hc : Consistent (runPassTimes (Zone.fixed c) tasks.length tasks) := by
    apply consistent_of_settled _ tasks.length
    intro i hi
    rw [runPassTimes_length] at hi
    obtain ⟨k, hk⟩ := hac i hi
    exact settled_after tasks hv tasks.length i (reachesRoot_within_length tasks k i hk)
  refine ⟨_, autoScheduleTimes_eq _ _, hc, ?_⟩
  rw [autoSchedule_eq_runPass, runPass_of_consistent _ hc]

theorem endDerived_iff (t : Task) :
    endDerived t = true ↔ ∃ s, t.start = .ymd s ∧ t.end_ = .ymd (s + t.duration) := by
  unfold endDerived
  cases hs : t.start <;> simp [dayOf]

theorem runPass_self_step (ts : List Task) (i : Nat) (t : Task) (s : Int)
    (h : ts[i]? = some t) (hp : parentOf ts t = some i)
    (hs : t.start = .ymd s) (he : t.end_ = .ymd (s + t.duration))
    (hdur : 1 ≤ t.duration) (hgap : 0 ≤ t.gap) :
    (runPass (Zone.fixed c) ts).2 = true ∧
    (runPass (Zone.fixed c) ts).1[i]? = some { t with
      start := .ymd (s + t.duration + (t.gap + 1))
      end_ := .ymd (s + t.duration + (t.gap + 1) + t.duration) } := by
  have hlt : s < s + t.duration + (t.gap + 1) := by omega
  have hpush : pushSeen (Zone.fixed c) ts (runPass (Zone.fixed c) ts).1 i t = some { t with
      start := .ymd (s + t.duration + (t.gap + 1))
      end_ := .ymd (s + t.duration + (t.gap + 1) + t.duration) } := by
    unfold pushSeen
    rw [hp]
    simp only [seen, Nat.lt_irrefl, if_false, h]
    rw [he, push_fixed t s _ hs, if_pos hlt]
  constructor
  · rw [runPass_flag]
    exact ⟨i, t, h, by rw [hpush]; rfl⟩
  · rw [runPass_get ts i t h, hpush]
    rfl

theorem self_invariant (tasks : List Task) (i : Nat) (task : Task)
    (hnd : DistinctIds tasks) (hi : tasks[i]? = some task)
    (hself : task.dependencyId = some task.id) (hne : task.id ≠ "")
    (hed : endDerived task = true) (hdur : 1 ≤ task.duration) (hgap : 0 ≤ task.gap)
    (n : Nat) :
    ∃ t s, (runPassTimes (Zone.fixed c) n tasks)[i]? = some t ∧ SameStatic t task ∧
      t.start = .ymd s ∧ t.end_ = .ymd (s + t.duration) ∧
      parentOf (runPassTimes (Zone.fixed c) n tasks) t = some i := by
  have hpar : parentOf tasks task = some i := by
    unfold parentOf taskMapGet
    rw [hself]
    simp only [if_neg hne]
    have := taskMapFrom_distinct 0 tasks i task hnd hi
    simpa using this
  induction n with
  | zero =>
    obtain ⟨s, hs, he⟩ := (endDerived_iff task).mp hed
    exact ⟨task, s, hi, ⟨rfl, rfl, rfl, rfl, rfl, rfl, rfl⟩, hs, he, hpar⟩
  | succ n ih =>
    obtain ⟨t, s, ht, hsame, hs, he, hp⟩ := ih
    have hd : 1 ≤ t.duration := by rw [hsame.2.2.1]; exact hdur
    have hg : 0 ≤ t.gap := by rw [hsame.2.2.2.1]; exact hgap
    obtain ⟨_, hget⟩ := runPass_self_step (runPassTimes (Zone.fixed c) n tasks) i t s ht hp hs he hd hg
    rw [runPassTimes_succ]
    refine ⟨_, _, hget, ?_, rfl, rfl, ?_⟩
    · exact hsame
    · rw [parentOf_runPass _ i t _ ht hget]
      exact hp

/-- In a zone without offset changes: a task that depends on itself, with
`end = start + duration`, `duration ≥ 1` and `gap ≥ 0`, is moved by every call
of `autoSchedule` to its previous end + gap + 1 day, and every call returns
`changed = true`. -/
theorem fixedZone_self_dependency_never_settles (tasks : List Task) (i : Nat) (task : Task)
    (hnd : DistinctIds tasks) (hi : tasks[i]? = some task)
    (hself : task.dependencyId = some task.id) (hne : task.id ≠ "")
    (hed : endDerived task = true) (hdur : 1 ≤ task.duration) (hgap : 0 ≤ task.gap)
    (n : Nat) :
    ∃ (ts ts' : List Task) (t t' : Task) (s : Int),
      autoScheduleTimes (Zone.fixed c) n tasks = .ok ts ∧ ts[i]? = some t ∧
      t.start = .ymd s ∧ t.end_ = .ymd (s + t.duration) ∧
      autoSchedule (Zone.fixed c) ts = .ok (ts', true) ∧ ts'[i]? = some t' ∧
      t'.start = .ymd (s + t.duration + t.gap + 1) ∧ s < s + t.duration + t.gap + 1 := by
  obtain ⟨t, s, ht, hsame, hs, he, hp⟩ :=
    self_invariant tasks i task hnd hi hself hne hed hdur hgap n
  have hd : 1 ≤ t.duration := by rw [hsame.2.2.1]; exact hdur
  have hg : 0 ≤ t.gap := by rw [hsame.2.2.2.1]; exact hgap
  obtain ⟨hflag, hget⟩ := runPass_self_step (runPassTimes (Zone.fixed c) n tasks) i t s ht hp hs he hd hg
  refine ⟨runPassTimes (Zone.fixed c) n tasks, (runPass (Zone.fixed c) (runPassTimes (Zone.fixed c) n tasks)).1, t, _, s,
    autoScheduleTimes_eq n tasks, ht, hs, he, ?_, hget, ?_, by omega⟩
  · rw [autoSchedule_eq_runPass, ← hflag]
  · show DateStr.ymd (s + t.duration + (t.gap + 1)) = DateStr.ymd (s + t.duration + t.gap + 1)
    congr 1
    omega

/-- In a zone without offset changes: an update that carries a readable start
and/or a duration that is not zero leaves the task with
`end = start + duration` days, in both copies of `updateTask`. -/
theorem fixedZone_updateTask_end_derived (tasks : List Task) (id : String) (u : TaskModel.Updates)
    (i : Nat) (task : Task) (s d : Int)
    (hfind : TaskModel.getTaskById tasks id = some i) (hget : tasks[i]? = some task)
    (hcarry : u.start.isSome = true ∨ u.duration.isSome = true)
    (hs : u.start.getD task.start = .ymd s)
    (hd : u.duration.getD task.duration = d)
    (hd0 : ∀ x, u.duration = some x → x ≠ 0) :
    (∃ (ts' : List Task) (t : Task), TaskModel.updateTask (Zone.fixed c) tasks id u = .ok ts' ∧
        ts'[i]? = some t ∧ t.start = .ymd s ∧ t.duration = d ∧ t.end_ = .ymd (s + d)) ∧
    (∃ (ts' : List Task) (t : Task) (s' : Int), Bundle.updateTask (Zone.fixed c) tasks id u = .ok ts' ∧
        ts'[i]? = some t ∧ t.start = .ymd s' ∧ s ≤ s' ∧ t.duration = d ∧
        t.end_ = .ymd (s' + d)) := by
  have hi : i < tasks.length := getElem?_lt _ _ _ hget
  -- the start and the duration used to derive `end`
  have hstart : (if TaskModel.startTruthy u then u.start.getD task.start else task.start)
      = .ymd s := by
    unfold TaskModel.startTruthy
    cases hus : u.start with
    | none => rw [hus] at hs; simpa using hs
    | some x =>
      rw [hus] at hs
      simp only [Option.getD_some] at hs
      subst hs
      simp [DateStr.truthy]
  have hdur : (if TaskModel.durationTruthy u then u.duration.getD task.duration
      else task.duration) = d := by
    unfold TaskModel.durationTruthy
    cases hud : u.duration with
    | none => rw [hud] at hd; simpa using hd
    | some x =>
      rw [hud] at hd
      simp only [Option.getD_some] at hd
      subst hd
      simp [hd0 x hud]
  have htruthy : (TaskModel.startTruthy u || TaskModel.durationTruthy u) = true := by
    unfold TaskModel.startTruthy TaskModel.durationTruthy
    rcases hcarry with h | h
    · obtain ⟨x, hx⟩ := Option.isSome_iff_exists.mp h
      rw [hx] at hs
      simp only [Option.getD_some] at hs
      subst hs
      simp [hx, DateStr.truthy]
    · obtain ⟨x, hx⟩ := Option.isSome_iff_exists.mp h
      simp [hx, hd0 x hx]
  have happly : TaskModel.applyUpdate (Zone.fixed c) tasks id u =
      .ok (tasks.set i (TaskModel.assign task { u with end_ := some (.ymd (s + d)) })) := by
    unfold TaskModel.applyUpdate
    rw [hfind]
    simp only
    rw [hget]
    simp only
    rw [if_pos htruthy, hstart, hdur]
    simp [addDays_fixed, Utils.formatDate, mul_msPerDay_div]
  have hnew : (TaskModel.assign task { u with end_ := some (.ymd (s + d)) }).start = .ymd s ∧
      (TaskModel.assign task { u with end_ := some (.ymd (s + d)) }).duration = d ∧
      (TaskModel.assign task { u with end_ := some (.ymd (s + d)) }).end_ = .ymd (s + d) :=
    ⟨hs, hd, rfl⟩
  generalize TaskModel.assign task { u with end_ := some (.ymd (s + d)) } = t1 at happly hnew
  constructor
  · refine ⟨_, t1, happly, ?_, hnew⟩
    simp [List.getElem?_set, hi]
  · have hget1 : (tasks.set i t1)[i]? = some t1 := by simp [List.getElem?_set, hi]
    have hres : Bundle.updateTask (Zone.fixed c) tasks id u = .ok (runPass (Zone.fixed c) (tasks.set i t1)).1 := by
      unfold Bundle.updateTask
      rw [hfind]
      simp only
      rw [happly]
      simp only [bind, Except.bind, autoSchedule_eq_runPass]
      rfl
    cases hp : pushSeen (Zone.fixed c) (tasks.set i t1) (runPass (Zone.fixed c) (tasks.set i t1)).1 i t1 with
    | none =>
      refine ⟨_, t1, s, hres, ?_, hnew.1, Int.le_refl s, hnew.2⟩
      rw [runPass_get _ i t1 hget1, hp]; rfl
    | some t =>
      obtain ⟨c, c', hc, hc', hlt, hend⟩ := pushSeen_start_ne _ _ _ _ _ hp
      have hst := pushSeen_cases _ _ _ _ _ hp
      obtain ⟨j, parent, _, _, hpush⟩ := hst
      have hsame := push_sameStatic _ _ _ hpush
      rw [hnew.1] at hc
      cases hc
      refine ⟨_, t, c', hres, ?_, hc', by omega, ?_, ?_⟩
      · rw [runPass_get _ i t1 hget1, hp]; rfl
      · rw [hsame.2.2.1]; exact hnew.2.1
      · rw [hend, hnew.2.1]

end Fixed

/-! ## The scheduler claims -/

/-- C1 (input on which the claim fails): on the chain A→B→C stored as C, B, A,
all three starting on 2024-01-01, one call of `autoSchedule` leaves C starting
on the day B ends, so the collection after the call is not consistent; in UTC
and in America/New_York alike. -/
theorem autoSchedule_reversed_chain_inconsistent :
    ValidDates (chainCBA (civil 2024 1 1)) ∧
      autoSchedule Zone.utc (chainCBA (civil 2024 1 1)) =
        .ok ([link "C" (civil 2024 1 3) (some "B"), link "B" (civil 2024 1 3) (some "A"),
              link "A" (civil 2024 1 1) none], true) ∧
      autoSchedule Zone.newYork (chainCBA (civil 2024 1 1)) =
        .ok ([link "C" (civil 2024 1 3) (some "B"), link "B" (civil 2024 1 3) (some "A"),
              link "A" (civil 2024 1 1) none], true) ∧
      ¬ Consistent [link "C" (civil 2024 1 3) (some "B"), link "B" (civil 2024 1 3) (some "A"),
              link "A" (civil 2024 1 1) none] :=
  ⟨by decide, rfl, rfl, by decide⟩

/-- C1 (amended): in a host time zone whose offset from UTC does not change
(`c` milliseconds throughout), for every task collection with readable dates,
after one call of `autoSchedule` every task whose dependency id resolves
satisfies `start(task) ≥ e + gap(task) + 1 day`, where `e` is the end of the
predecessor as it stood when the task was visited: its end after the call when
the predecessor stands earlier in the collection than the task, its end before
the call otherwise. -/
theorem autoSchedule_dependency_as_visited (c : Int) (tasks : List Task)
    (hv : ValidDates tasks) :
    ∃ (ts' : List Task) (ch : Bool), autoSchedule (Zone.fixed c) tasks = .ok (ts', ch) ∧
      ∀ (i j : Nat) (task : Task), tasks[i]? = some task → parentOf tasks task = some j →
        ∃ (t parent : Task), ts'[i]? = some t ∧ seen tasks ts' i j = some parent ∧
          satisfied t parent = true :=
  ⟨(runPass (Zone.fixed c) tasks).1, (runPass (Zone.fixed c) tasks).2,
    autoSchedule_eq_runPass tasks,
    fun i j task h hp => runPass_satisfied_seen tasks hv i j task h hp⟩

/-- C1 (witness): the amended statement on the reversed chain C, B, A, in the
zone five and a half hours ahead of UTC. -/
theorem autoSchedule_dependency_as_visited_witness :
    ValidDates (chainCBA (civil 2024 1 1)) ∧
    ∃ (ts' : List Task) (ch : Bool),
      autoSchedule (Zone.fixed 19800000) (chainCBA (civil 2024 1 1)) = .ok (ts', ch) ∧
      ∀ (i j : Nat) (task : Task), (chainCBA (civil 2024 1 1))[i]? = some task →
        parentOf (chainCBA (civil 2024 1 1)) task = some j →
        ∃ (t parent : Task), ts'[i]? = some t ∧
          seen (chainCBA (civil 2024 1 1)) ts' i j = some parent ∧
          satisfied t parent = true :=
  ⟨by decide,
    autoSchedule_dependency_as_visited 19800000 (chainCBA (civil 2024 1 1)) (by decide)⟩

/-- C2 (failing input): in America/New_York, on A{2024-03-05, duration 5, end
2024-03-10} followed by B{depends on A, gap 0, start 2024-03-01, duration 3},
a collection with distinct ids, readable dates and the predecessor first, one
call of `autoSchedule` writes `B.start = 2024-03-10`, the day A ends, so B does
not satisfy `start ≥ end(A) + gap + 1 day`, and the call that follows returns
`changed = true`. -/
theorem newYork_ordered_pair_stays_inconsistent :
    (DistinctIds [marchA, marchB] ∧ ValidDates [marchA, marchB] ∧
      PredecessorsFirst [marchA, marchB]) ∧
    autoSchedule Zone.newYork [marchA, marchB] = .ok ([marchA, marchBPushed], true) ∧
    marchBPushed.start = .ymd (civil 2024 3 10) ∧ marchA.end_ = .ymd (civil 2024 3 10) ∧
    satisfied marchBPushed marchA = false ∧ ¬ Consistent [marchA, marchBPushed] ∧
    autoSchedule Zone.newYork [marchA, marchBPushed] = .ok ([marchA, marchBPushed], true) :=
  ⟨⟨by decide, by decide, by decide⟩, rfl, rfl, rfl, by decide, by decide, rfl⟩

theorem autoScheduleTimes_stuck (z : Zone) (x : List Task)
    (h : autoSchedule z x = .ok (x, true)) (n : Nat) : autoScheduleTimes z n x = .ok x := by
  induction n with
  | zero => rfl
  | succ n ih =>
    unfold autoScheduleTimes
    rw [h]
    exact ih

/-- C3 (failing input): in America/New_York, for the chain A→B→C (each of gap 0
and duration 1) all starting on 2024-03-09 and stored as C, B, A: the first
call leaves C and B on 2024-03-10 .. 2024-03-10, and from then on every call
returns `changed = true` on that same state, so repeating `autoSchedule` until
it returns `changed = false` never ends. -/
theorem newYork_reversed_chain_never_settles (n : Nat) :
    autoScheduleTimes Zone.newYork (n + 1) (chainCBA (civil 2024 3 9)) =
      .ok [mkTask "C" (civil 2024 3 10) (civil 2024 3 10) 1 0 (some "B"),
           mkTask "B" (civil 2024 3 10) (civil 2024 3 10) 1 0 (some "A"),
           link "A" (civil 2024 3 9) none] ∧
    autoSchedule Zone.newYork
        [mkTask "C" (civil 2024 3 10) (civil 2024 3 10) 1 0 (some "B"),
         mkTask "B" (civil 2024 3 10) (civil 2024 3 10) 1 0 (some "A"),
         link "A" (civil 2024 3 9) none] =
      .ok ([mkTask "C" (civil 2024 3 10) (civil 2024 3 10) 1 0 (some "B"),
            mkTask "B" (civil 2024 3 10) (civil 2024 3 10) 1 0 (some "A"),
            link "A" (civil 2024 3 9) none], true) := by
  have h1 : autoSchedule Zone.newYork (chainCBA (civil 2024 3 9)) =
      .ok ([mkTask "C" (civil 2024 3 10) (civil 2024 3 10) 1 0 (some "B"),
            mkTask "B" (civil 2024 3 10) (civil 2024 3 10) 1 0 (some "A"),
            link "A" (civil 2024 3 9) none], true) := rfl
  have h2 : autoSchedule Zone.newYork
        [mkTask "C" (civil 2024 3 10) (civil 2024 3 10) 1 0 (some "B"),
         mkTask "B" (civil 2024 3 10) (civil 2024 3 10) 1 0 (some "A"),
         link "A" (civil 2024 3 9) none] =
      .ok ([mkTask "C" (civil 2024 3 10) (civil 2024 3 10) 1 0 (some "B"),
            mkTask "B" (civil 2024 3 10) (civil 2024 3 10) 1 0 (some "A"),
            link "A" (civil 2024 3 9) none], true) := rfl
  refine ⟨?_, h2⟩
  show (do
    let r ← autoSchedule Zone.newYork (chainCBA (civil 2024 3 9))
    autoScheduleTimes Zone.newYork n r.1) = _
  rw [h1]
  exact autoScheduleTimes_stuck Zone.newYork _ h2 n

/-- C4 (failing input): in America/New_York the collection A{ends 2024-11-03},
B{depends on A, gap 0, starts 2024-11-04} is consistent, yet `autoSchedule`
returns `changed = true` on it (and rewrites B with the same dates). -/
theorem newYork_consistent_pair_reports_change :
    Consistent [novemberA, novemberB] ∧
    autoSchedule Zone.newYork [novemberA, novemberB] = .ok ([novemberA, novemberB], true) :=
  ⟨by decide, rfl⟩

/-- C7 (failing input): in America/New_York, on A{2024-03-05 .. 2024-03-10} and
B{depends on A, gap 0, 2024-03-10 .. 2024-03-12, duration 3}, `autoSchedule`
returns `changed = true` although every task after the call is the task before
it: no start and no end differs. -/
theorem newYork_changed_without_difference :
    autoSchedule Zone.newYork [marchA, marchBPushed] = .ok ([marchA, marchBPushed], true) ∧
    ¬ ∃ (i : Nat) (t t' : Task), [marchA, marchBPushed][i]? = some t ∧
        [marchA, marchBPushed][i]? = some t' ∧ (t'.start ≠ t.start ∨ t'.end_ ≠ t.end_) := by
  refine ⟨rfl, ?_⟩
  rintro ⟨i, t, t', h, h', hne⟩
  rw [h] at h'
  cases h'
  rcases hne with hne | hne <;> exact hne rfl

/-- C8 (failing input): in America/New_York, A{2024-03-05, duration 5, end
2024-03-10} and B{depends on A, gap 0, start 2024-03-01, duration 3, end
2024-03-04} both have `end = start + duration`; after `autoSchedule` B is
2024-03-10 .. 2024-03-12 with duration 3, so its end is its start plus 2
days. -/
theorem newYork_push_breaks_end_derivation :
    (∀ t ∈ [marchA, marchB], endDerived t = true) ∧
    autoSchedule Zone.newYork [marchA, marchB] = .ok ([marchA, marchBPushed], true) ∧
    marchBPushed.start = .ymd (civil 2024 3 10) ∧ marchBPushed.duration = 3 ∧
    marchBPushed.end_ = .ymd (civil 2024 3 10 + 2) ∧ endDerived marchBPushed = false :=
  ⟨by decide, rfl, rfl, rfl, rfl, by decide⟩

/-- C9 (failing input): in America/New_York, for the two-task collection
`[A, B]` with A{no dependency, end 2024-03-10} and B{depends on A, gap 0, start
2024-03-01, duration 3}, `autoSchedule` sets `B.start` to 2024-03-10, which is
`A.end + gap`, not `max(B.start, A.end + gap + 1 day)` = 2024-03-11, and
`B.end` to 2024-03-12, which is not the new start plus 3 days. -/
theorem newYork_pair_start_one_day_short :
    (marchA.dependencyId = none ∧ marchB.dependencyId = some marchA.id ∧
      marchB.id ≠ marchA.id) ∧
    autoSchedule Zone.newYork [marchA, marchB] = .ok ([marchA, marchBPushed], true) ∧
    marchBPushed.start = .ymd (civil 2024 3 10) ∧
    max (civil 2024 3 1) (civil 2024 3 10 + marchB.gap + 1) = civil 2024 3 11 ∧
    marchBPushed.end_ = .ymd (civil 2024 3 12) ∧
    civil 2024 3 12 ≠ civil 2024 3 10 + marchB.duration :=
  ⟨⟨rfl, rfl, by decide⟩, rfl, rfl, by decide, rfl, by decide⟩

/-- C10 (failing input): `updateTask(id, {duration: 0})` on a task {start
2024-02-01, end 2024-02-06, duration 5} stores duration 0 and keeps the end
2024-02-06, in both copies and in any of the two zones: the falsy 0 skips the
re-derivation of `end`.  And in America/New_York `updateTask(id, {duration: 3})`
on a task starting 2024-03-10 gives end 2024-03-12. -/
theorem updateTask_end_drifts :
    TaskModel.updateTask Zone.utc [scenarioFeb] "1706745600000" { duration := some 0 } =
      .ok [{ scenarioFeb with duration := 0 }] ∧
    Bundle.updateTask Zone.utc [scenarioFeb] "1706745600000" { duration := some 0 } =
      .ok [{ scenarioFeb with duration := 0 }] ∧
    TaskModel.updateTask Zone.newYork [scenarioFeb] "1706745600000" { duration := some 0 } =
      .ok [{ scenarioFeb with duration := 0 }] ∧
    ({ scenarioFeb with duration := 0 } : Task).end_ = .ymd (civil 2024 2 6) ∧
    endDerived { scenarioFeb with duration := 0 } = false ∧
    TaskModel.updateTask Zone.newYork
        [mkTask "T" (civil 2024 3 10) (civil 2024 3 15) 5 0 none] "T" { duration := some 3 } =
      .ok [mkTask "T" (civil 2024 3 10) (civil 2024 3 12) 3 0 none] ∧
    endDerived (mkTask "T" (civil 2024 3 10) (civil 2024 3 12) 3 0 none) = false :=
  ⟨rfl, rfl, rfl, rfl, by decide, rfl, by decide⟩

/-- C11 (failing input): in America/New_York, with A{2024-03-05, duration 5,
end 2024-03-10} in the collection, `addTask` with B{depends on A, gap 0, start
2024-03-01, duration 3} at the clock reading 1709800000000 (a fresh id)
appends B with start 2024-03-10 and end 2024-03-12: the start is the day A
ends, and the end is the start plus 2 days. -/
theorem newYork_addTask_one_day_short :
    (DistinctIds [marchA] ∧ ∀ t ∈ [marchA], t.id ≠ toString (1709800000000 : Nat)) ∧
    TaskModel.addTask Zone.newYork [marchA] 1709800000000 marchBData =
      .ok ([marchA,
            { id := "1709800000000", name := "B", start := .ymd (civil 2024 3 10),
              end_ := .ymd (civil 2024 3 12), duration := 3, gap := 0, progress := 0,
              dependencyId := some "A", status := "todo" }],
           { id := "1709800000000", name := "B", start := .ymd (civil 2024 3 10),
              end_ := .ymd (civil 2024 3 12), duration := 3, gap := 0, progress := 0,
              dependencyId := some "A", status := "todo" }) ∧
    satisfied { id := "1709800000000", name := "B", start := .ymd (civil 2024 3 10),
                end_ := .ymd (civil 2024 3 12), duration := 3, gap := 0, progress := 0,
                dependencyId := some "A", status := "todo" } marchA = false ∧
    endDerived { id := "1709800000000", name := "B", start := .ymd (civil 2024 3 10),
                 end_ := .ymd (civil 2024 3 12), duration := 3, gap := 0, progress := 0,
                 dependencyId := some "A", status := "todo" } = false :=
  ⟨⟨by decide, by decide⟩, rfl, by decide, by decide⟩

/-- C18 (failing input): in America/New_York the two-task collection A{ends
2024-03-10}, B{depends on A, gap 0, start 2024-03-01, duration 3} has distinct
ids, readable dates and acyclic links; after 2 consecutive calls of
`autoSchedule` B still starts on 2024-03-10, the day A ends, and one further
call returns `changed = true`. -/
theorem newYork_two_tasks_do_not_converge :
    (DistinctIds [marchA, marchB] ∧ ValidDates [marchA, marchB] ∧ Acyclic [marchA, marchB]) ∧
    autoScheduleTimes Zone.newYork [marchA, marchB].length [marchA, marchB] =
      .ok [marchA, marchBPushed] ∧
    ¬ Consistent [marchA, marchBPushed] ∧
    autoSchedule Zone.newYork [marchA, marchBPushed] = .ok ([marchA, marchBPushed], true) :=
  ⟨⟨by decide, by decide, fun i hi => ⟨2, (by decide : ∀ i, i < 2 →
      reachesRoot [marchA, marchB] 2 i = true) i hi⟩⟩, rfl, by decide, rfl⟩

/-- C19 (failing input): in America/New_York the self-dependent task S{start
2024-03-09, end 2024-03-10, duration 1, gap 0} is moved by the first call to
start 2024-03-10, which is its previous end + gap, not + 1 day; the next call
returns `changed = true` and writes the same start 2024-03-10 again, so the
start is not strictly increased. -/
theorem newYork_self_loop_start_stuck :
    (DistinctIds [selfLoopMarch] ∧ selfLoopMarch.dependencyId = some selfLoopMarch.id ∧
      endDerived selfLoopMarch = true ∧ 1 ≤ selfLoopMarch.duration ∧ 0 ≤ selfLoopMarch.gap) ∧
    autoSchedule Zone.newYork [selfLoopMarch] =
      .ok ([mkTask "S" (civil 2024 3 10) (civil 2024 3 10) 1 0 (some "S")], true) ∧
    selfLoopMarch.end_ = .ymd (civil 2024 3 10) ∧
    autoSchedule Zone.newYork [mkTask "S" (civil 2024 3 10) (civil 2024 3 10) 1 0 (some "S")] =
      .ok ([mkTask "S" (civil 2024 3 10) (civil 2024 3 10) 1 0 (some "S")], true) :=
  ⟨⟨by decide, rfl, by decide, by decide, by decide⟩, rfl, rfl, rfl⟩

/-! ## The project range -/

theorem mathMin_spec (l : List JSDate) (hne : l ≠ []) (hall : ∀ d ∈ l, d.isSome = true) :
    ∃ lo, mathMin l = some lo ∧ some lo ∈ l ∧ ∀ v, some v ∈ l → lo ≤ v := by
  induction l with
  | nil => exact absurd rfl hne
  | cons d ds ih =>
    obtain ⟨a, ha⟩ := Option.isSome_iff_exists.mp (hall d (List.mem_cons_self _ _))
    subst ha
    cases ds with
    | nil =>
      refine ⟨a, rfl, List.mem_cons_self _ _, ?_⟩
      intro v hv
      simp at hv
      omega
    | cons d' ds' =>
      obtain ⟨lo, hlo, hmem, hmin⟩ :=
        ih (by simp) (fun x hx => hall x (List.mem_cons_of_mem _ hx))
      refine ⟨min a lo, ?_, ?_, ?_⟩
      · show (match some a, mathMin (d' :: ds') with
          | some a, some b => some (min a b)
          | _, _ => none) = some (min a lo)
        rw [hlo]
      · rcases Int.le_total a lo with h | h
        · rw [Int.min_eq_left h]; exact List.mem_cons_self _ _
        · rw [Int.min_eq_right h]; exact List.mem_cons_of_mem _ hmem
      · intro v hv
        rcases List.mem_cons.mp hv with e | e
        · cases e; exact Int.min_le_left _ _
        · exact Int.le_trans (Int.min_le_right _ _) (hmin v e)

theorem mathMax_spec (l : List JSDate) (hne : l ≠ []) (hall : ∀ d ∈ l, d.isSome = true) :
    ∃ hi, mathMax l = some hi ∧ some hi ∈ l ∧ ∀ v, some v ∈ l → v ≤ hi := by
  induction l with
  | nil => exact absurd rfl hne
  | cons d ds ih =>
    obtain ⟨a, ha⟩ := Option.isSome_iff_exists.mp (hall d (List.mem_cons_self _ _))
    subst ha
    cases ds with
    | nil =>
      refine ⟨a, rfl, List.mem_cons_self _ _, ?_⟩
      intro v hv
      simp at hv
      omega
    | cons d' ds' =>
      obtain ⟨hi, hhi, hmem, hmax⟩ :=
        ih (by simp) (fun x hx => hall x (List.mem_cons_of_mem _ hx))
      refine ⟨max a hi, ?_, ?_, ?_⟩
      · show (match some a, mathMax (d' :: ds') with
          | some a, some b => some (max a b)
          | _, _ => none) = some (max a hi)
        rw [hhi]
      · rcases Int.le_total a hi with h | h
        · rw [Int.max_eq_right h]; exact List.mem_cons_of_mem _ hmem
        · rw [Int.max_eq_left h]; exact List.mem_cons_self _ _
      · intro v hv
        rcases List.mem_cons.mp hv with e | e
        · cases e; exact Int.le_max_left _ _
        · exact Int.le_trans (hmax v e) (Int.le_max_right _ _)

theorem newDate_eq_some (s : DateStr) (t : Int) :
    newDate s = some t ↔ ∃ d, s = .ymd d ∧ t = d * msPerDay := by
  cases s <;> simp [newDate, eq_comm]

theorem earliest_start (tasks : List Task) (hne : tasks ≠ []) (hv : ValidDates tasks) :
    ∃ lo, mathMin (tasks.map (fun t => newDate t.start)) = some (lo * msPerDay) ∧
      IsEarliestStart tasks lo := by
  obtain ⟨m, h1, h2, h3⟩ := mathMin_spec (tasks.map (fun t => newDate t.start))
    (by simpa using hne)
    (by
      intro d hd
      obtain ⟨t, ht, e⟩ := List.mem_map.mp hd
      rw [← e]; exact (hv t ht).1)
  obtain ⟨t, ht, e⟩ := List.mem_map.mp h2
  obtain ⟨lo, hlo, hm⟩ := (newDate_eq_some _ _).mp e
  subst hm
  refine ⟨lo, h1, ⟨t, ht, hlo⟩, ?_⟩
  intro t' ht' s hs
  have := h3 (s * msPerDay) (List.mem_map.mpr ⟨t', ht', (newDate_eq_some _ _).mpr ⟨s, hs, rfl⟩⟩)
  unfold msPerDay at this
  omega

theorem latest_end (tasks : List Task) (hne : tasks ≠ []) (hv : ValidDates tasks) :
    ∃ hi, mathMax (tasks.map (fun t => newDate t.end_)) = some (hi * msPerDay) ∧
      IsLatestEnd tasks hi := by
  obtain ⟨m, h1, h2, h3⟩ := mathMax_spec (tasks.map (fun t => newDate t.end_))
    (by simpa using hne)
    (by
      intro d hd
      obtain ⟨t, ht, e⟩ := List.mem_map.mp hd
      rw [← e]; exact (hv t ht).2)
  obtain ⟨t, ht, e⟩ := List.mem_map.mp h2
  obtain ⟨hi, hhi, hm⟩ := (newDate_eq_some _ _).mp e
  subst hm
  refine ⟨hi, h1, ⟨t, ht, hhi⟩, ?_⟩
  intro t' ht' s hs
  have := h3 (s * msPerDay) (List.mem_map.mpr ⟨t', ht', (newDate_eq_some _ _).mpr ⟨s, hs, rfl⟩⟩)
  unfold msPerDay at this
  omega

theorem setHoursZero_fixed_midnight (c d : Int) (h0 : 0 ≤ c) (h1 : c < msPerDay) :
    (Zone.fixed c).setHoursZero (d * msPerDay) = d * msPerDay - c := by
  simp only [Zone.setHoursZero, Zone.toUTC, Zone.localTime, Zone.fixed]
  unfold msPerDay at h1 ⊢
  omega

theorem range_bound_fixed (c d n : Int) (h0 : 0 ≤ c) (h1 : c < msPerDay) :
    setDatePlus (Zone.fixed c) (setHoursZero (Zone.fixed c) (some (d * msPerDay))) n =
      some ((d + n) * msPerDay - c) := by
  simp only [setDatePlus, setHoursZero, setHoursZero_fixed_midnight c d h0 h1,
    setDatePlus_fixed]
  congr 1
  unfold msPerDay
  omega

/-- C14 (input on which the claim fails): for the single task A{start
2024-01-01, end 2024-01-06} the `taskModel.js` copy of `getProjectRange` returns,
in UTC, midnight of 2023-12-30 and midnight of 2024-01-16, which are the
earliest start less 2 days and the latest end plus 10 days, not less 5 and plus
20. -/
theorem taskModel_getProjectRange_pads_two_and_ten :
    TaskModel.getProjectRange Zone.utc [scenarioA] 0 =
      (some (civil 2023 12 30 * msPerDay), some (civil 2024 1 16 * msPerDay)) ∧
    IsEarliestStart [scenarioA] (civil 2024 1 1) ∧ IsLatestEnd [scenarioA] (civil 2024 1 6) ∧
    TaskModel.getProjectRange Zone.utc [scenarioA] 0 ≠
      (some ((civil 2024 1 1 - 5) * msPerDay), some ((civil 2024 1 6 + 20) * msPerDay)) := by
  refine ⟨rfl, ⟨⟨scenarioA, by simp, rfl⟩, ?_⟩, ⟨⟨scenarioA, by simp, rfl⟩, ?_⟩, by decide⟩
  · intro t ht s hs
    simp only [List.mem_singleton] at ht
    subst ht
    cases hs
    exact Int.le_refl _
  · intro t ht s hs
    simp only [List.mem_singleton] at ht
    subst ht
    cases hs
    exact Int.le_refl _

/-- C14 (amended): in a host time zone that stays `c` milliseconds ahead of UTC,
`0 ≤ c < 24 h` (UTC or east of it), for every non-empty task collection with
readable dates, `getProjectRange` of `bundle.js` returns as start the local
midnight that begins the day (earliest task start) - 5 days and as end the
local midnight that begins the day (latest task end) + 20 days, and
`getProjectRange` of `taskModel.js` returns the local midnights of (earliest
task start) - 2 days and (latest task end) + 10 days.  Both only read the
tasks. -/
theorem getProjectRange_padding (c : Int) (tasks : List Task) (now : Nat)
    (h0 : 0 ≤ c) (h1 : c < msPerDay) (hne : tasks ≠ []) (hv : ValidDates tasks) :
    ∃ lo hi : Int, IsEarliestStart tasks lo ∧ IsLatestEnd tasks hi ∧
      Bundle.getProjectRange (Zone.fixed c) tasks now =
        (some ((lo - 5) * msPerDay - c), some ((hi + 20) * msPerDay - c)) ∧
      TaskModel.getProjectRange (Zone.fixed c) tasks now =
        (some ((lo - 2) * msPerDay - c), some ((hi + 10) * msPerDay - c)) := by
  obtain ⟨lo, hlo, hE⟩ := earliest_start tasks hne hv
  obtain ⟨hi, hhi, hL⟩ := latest_end tasks hne hv
  have hlen : ¬ tasks.length = 0 := by
    intro h; exact hne (List.length_eq_zero.mp h)
  refine ⟨lo, hi, hE, hL, ?_, ?_⟩
  · unfold Bundle.getProjectRange
    rw [if_neg hlen]
    simp only [hlo, hhi, range_bound_fixed c _ _ h0 h1]
    rfl
  · unfold TaskModel.getProjectRange
    rw [if_neg hlen]
    simp only [hlo, hhi, range_bound_fixed c _ _ h0 h1]
    rfl

/-- C14 (witness): the collection A, B with A{2024-01-01 .. 2024-01-06} and
B{2024-01-01 .. 2024-01-04}, in the zone five and a half hours ahead of UTC. -/
theorem getProjectRange_padding_witness :
    ((0 : Int) ≤ 19800000 ∧ (19800000 : Int) < msPerDay ∧ [scenarioA, scenarioB] ≠ [] ∧
      ValidDates [scenarioA, scenarioB]) ∧
    ∃ lo hi : Int, IsEarliestStart [scenarioA, scenarioB] lo ∧
      IsLatestEnd [scenarioA, scenarioB] hi ∧
      Bundle.getProjectRange (Zone.fixed 19800000) [scenarioA, scenarioB] 0 =
        (some ((lo - 5) * msPerDay - 19800000), some ((hi + 20) * msPerDay - 19800000)) ∧
      TaskModel.getProjectRange (Zone.fixed 19800000) [scenarioA, scenarioB] 0 =
        (some ((lo - 2) * msPerDay - 19800000), some ((hi + 10) * msPerDay - 19800000)) :=
  ⟨⟨by decide, by decide, by decide, by decide⟩,
    getProjectRange_padding 19800000 [scenarioA, scenarioB] 0 (by decide) (by decide)
      (by decide) (by decide)⟩

/-- C15: in every time zone, for the empty task collection and every clock
reading `now` such that local midnight occurs on the local day of `now` and on
the day 30 days later (neither is skipped by a change of offset),
`getProjectRange` (either copy) returns a start that shows local midnight of
today, the local day of `now`, and an end that shows local midnight 30 days
after the start. -/
theorem getProjectRange_empty (z : Zone) (now : Nat)
    (hm : z.HasLocal (z.localTime (now : Int) / msPerDay * msPerDay))
    (hm' : z.HasLocal (z.localTime (now : Int) / msPerDay * msPerDay + 30 * msPerDay)) :
    ∃ s e : Int, TaskModel.getProjectRange z [] now = (some s, some e) ∧
      Bundle.getProjectRange z [] now = (some s, some e) ∧
      z.localTime s / msPerDay = z.localTime (now : Int) / msPerDay ∧
      z.localTime s % msPerDay = 0 ∧
      z.localTime e = z.localTime s + 30 * msPerDay := by
  have hs : z.localTime (z.setHoursZero (now : Int)) =
      z.localTime (now : Int) / msPerDay * msPerDay := hm
  refine ⟨z.setHoursZero (now : Int), z.setDatePlus (z.setHoursZero (now : Int)) 30,
    rfl, rfl, ?_, ?_, ?_⟩
  · rw [hs]; unfold msPerDay; omega
  · rw [hs]; unfold msPerDay; omega
  · unfold Zone.setDatePlus
    rw [hs]
    exact hm'

/-- C15 (witness): America/New_York at 2024-03-01 17:00 UTC (noon local time),
30 days before which and after which the offset changes: the start is
2024-03-01 05:00 UTC, local midnight at UTC-5, and the end is 2024-03-31 04:00
UTC, local midnight at UTC-4. -/
theorem getProjectRange_empty_witness :
    (Zone.newYork.HasLocal
        (Zone.newYork.localTime ((1709312400000 : Nat) : Int) / msPerDay * msPerDay) ∧
      Zone.newYork.HasLocal
        (Zone.newYork.localTime ((1709312400000 : Nat) : Int) / msPerDay * msPerDay +
          30 * msPerDay)) ∧
    Bundle.getProjectRange Zone.newYork [] 1709312400000 =
      (some (civil 2024 3 1 * msPerDay + 5 * msPerHour),
       some (civil 2024 3 31 * msPerDay + 4 * msPerHour)) ∧
    ∃ s e : Int, TaskModel.getProjectRange Zone.newYork [] 1709312400000 = (some s, some e) ∧
      Bundle.getProjectRange Zone.newYork [] 1709312400000 = (some s, some e) ∧
      Zone.newYork.localTime s / msPerDay =
        Zone.newYork.localTime ((1709312400000 : Nat) : Int) / msPerDay ∧
      Zone.newYork.localTime s % msPerDay = 0 ∧
      Zone.newYork.localTime e = Zone.newYork.localTime s + 30 * msPerDay :=
  ⟨⟨by decide, by decide⟩, rfl,
    getProjectRange_empty Zone.newYork 1709312400000 (by decide) (by decide)⟩

end Gantt
